import Mathlib

/-!
Verification development for `scripts/build_swift_research_corpus.py`
(journeyatlas repository).

The development shallowly embeds the normalization → deduplication →
classification → synthesis → merge pipeline of that script:

* Python strings are Lean `String`s; the Python string primitives used by the
  script (`str.strip`, `str.lower`, `str.replace`, line splitting,
  code-point comparison, `int(...)` conversion) are re-implemented below by
  structural recursion over `String.data` so that every definition evaluates
  inside the kernel.
* A JSON value (the result of `json.loads`) is the inductive `JVal`;
  `json.loads` itself (an external library call) is a parameter
  `jparse : String → Option JVal` of the loader, and Python's process-salted
  builtin `hash` is a parameter `hash : String → Int` of the normalizer.
* Fallible Python code (raising `FileNotFoundError`, `json.JSONDecodeError`,
  `ValueError`, `AttributeError`) returns `Except String _`; a missing input
  file is a `none` entry of the source list.
* The merge step's in-place list mutation becomes explicit state passing
  (`MergeState`), and the `dict` objects of the script become association
  lists with the same overwrite/lookup behaviour.
-/

/-! ## Python string primitives -/

/-- Python `str.strip()` whitespace set (the ASCII part used by the corpus). -/
def isSpaceChar (c : Char) : Bool :=
  c = ' ' || c = '\t' || c = '\n' || c = '\r' || c = '\x0b' || c = '\x0c'

/-- Python `str.strip()`: drop whitespace from both ends. -/
def pyStrip (s : String) : String :=
  ⟨((s.data.dropWhile isSpaceChar).reverse.dropWhile isSpaceChar).reverse⟩

/-- ASCII lower-casing of one character (Python `str.lower` on the
code points appearing in this corpus). -/
def lowerChar (c : Char) : Char :=
  if 'A' ≤ c ∧ c ≤ 'Z' then Char.ofNat (c.toNat + 32) else c

/-- Python `str.lower()`. -/
def pyLower (s : String) : String := ⟨s.data.map lowerChar⟩

/-- Python code-point lexicographic `<=` on strings (list form). -/
def lexLe : List Char → List Char → Bool
  | [], _ => true
  | _ :: _, [] => false
  | a :: as, b :: bs =>
    if a.toNat < b.toNat then true
    else if b.toNat < a.toNat then false
    else lexLe as bs

/-- Python `<=` on strings. -/
def strLe (a b : String) : Bool := lexLe a.data b.data

/-- The loader's input-normalization quirk `text.replace('\\n', '\n')`:
rewrite each literal backslash-n escape to a real newline
(left-to-right, non-overlapping, as Python `str.replace`). -/
def unescapeNL : List Char → List Char
  | [] => []
  | '\\' :: 'n' :: rest => '\n' :: unescapeNL rest
  | c :: rest => c :: unescapeNL rest

/-- Split a character list at a separator character (`str.splitlines` on the
already-unescaped text when the separator is a newline, `str.split(',')` for
the keyword rule; a trailing separator yields a final empty piece, which
every caller filters out). -/
def splitChar (sep : Char) : List Char → List (List Char)
  | [] => [[]]
  | c :: rest =>
    if c = sep then [] :: splitChar sep rest
    else
      match splitChar sep rest with
      | [] => [[c]]
      | l :: ls => (c :: l) :: ls

/-- `path.read_text().replace('\\n', '\n')` followed by `.splitlines()`
(lines 75–76 of the script). -/
def splitLines (content : String) : List String :=
  (splitChar '\n' (unescapeNL content.data)).map (fun l => ⟨l⟩)

/-- Decimal digits to a number (helper for Python `int(str)`). -/
def digitsToNat : List Char → Nat → Nat
  | [], acc => acc
  | c :: cs, acc => digitsToNat cs (acc * 10 + (c.toNat - 48))

/-- Python `int(...)` on a string: optional sign, decimal digits, surrounding
whitespace; `none` models the `ValueError` raised otherwise. -/
def pyParseIntStr (s : String) : Option Int :=
  let t := pyStrip s
  match t.data with
  | [] => none
  | '+' :: ds => if ds ≠ [] ∧ ds.all Char.isDigit then some (digitsToNat ds 0 : Int) else none
  | '-' :: ds => if ds ≠ [] ∧ ds.all Char.isDigit then some (-(digitsToNat ds 0 : Int)) else none
  | ds => if ds.all Char.isDigit then some (digitsToNat ds 0 : Int) else none

/-! ## JSON values and Python coercions -/

/-- A decoded JSON value, the result type of `json.loads` on one input line.
Numbers are modelled as integers (the corpus carries integer years; float
records are outside every claim). -/
inductive JVal where
  | jnull : JVal
  | jbool : Bool → JVal
  | jint : Int → JVal
  | jstr : String → JVal
  | jarr : List JVal → JVal
  | jobj : List (String × JVal) → JVal

/-- Python truthiness of a decoded JSON value (`None`, `False`, `0`, `''`,
`[]`, `{}` are falsy). -/
def JVal.truthy : JVal → Bool
  | .jnull => false
  | .jbool b => b
  | .jint n => n != 0
  | .jstr s => s != ""
  | .jarr xs => !xs.isEmpty
  | .jobj fs => !fs.isEmpty

/-- Python `a or b` on decoded values. -/
def pyOr (a b : JVal) : JVal := if a.truthy then a else b

/-- Association-list lookup where a later binding wins, matching the
behaviour of a Python `dict` built by repeated assignment (and of
`json.loads` on duplicate keys). -/
def alookup {α β : Type} [DecidableEq α] : List (α × β) → α → Option β
  | [], _ => none
  | (k, v) :: rest, key =>
    match alookup rest key with
    | some r => some r
    | none => if key = k then some v else none

/-- Python `row.get(key, default)` on a decoded JSON object. -/
def jget (fields : List (String × JVal)) (key : String) (dflt : JVal) : JVal :=
  match alookup fields key with
  | some v => v
  | none => dflt

def sepComma : List String → String
  | [] => ""
  | [s] => s
  | s :: rest => s ++ ", " ++ sepComma rest

mutual
/-- Python `repr` of a decoded JSON value (used by `str` on non-strings). -/
def pyRepr : JVal → String
  | .jnull => "None"
  | .jbool true => "True"
  | .jbool false => "False"
  | .jint n => toString n
  | .jstr s => "'" ++ s ++ "'"
  | .jarr xs => "[" ++ sepComma (pyReprList xs) ++ "]"
  | .jobj fs => "\x7b" ++ sepComma (pyReprObj fs) ++ "\x7d"

def pyReprList : List JVal → List String
  | [] => []
  | x :: xs => pyRepr x :: pyReprList xs

def pyReprObj : List (String × JVal) → List String
  | [] => []
  | (k, v) :: fs => ("'" ++ k ++ "': " ++ pyRepr v) :: pyReprObj fs
end

/-- Python `str(...)` on a decoded JSON value. -/
def pyStr : JVal → String
  | .jstr s => s
  | v => pyRepr v

/-- Python `int(...)` on a decoded JSON value; `none` models the
`ValueError`/`TypeError` raised on unconvertible values. -/
def pyInt : JVal → Option Int
  | .jint n => some n
  | .jbool b => some (if b then 1 else 0)
  | .jstr s => pyParseIntStr s
  | _ => none

/-! ## Record Normalizer (script lines 61–105) -/

/-- Canonical corpus record built by the normalizer. -/
structure Paper where
  id : String
  title : String
  year : Int
  domain : String
  actionable_insight : String
  action_hint : String
  source_url : String
  keywords : List String
deriving DecidableEq

/-- `value.replace(';', ',')` of script line 65 (single-character pattern). -/
def semiToComma (s : String) : String :=
  ⟨s.data.map (fun c => if c = ';' then ',' else c)⟩

/-- `_normalize_keywords` (script lines 61–67). -/
def normalize_keywords : JVal → List String
  | .jarr xs => ((xs.map (fun x => pyStrip (pyStr x))).filter (· ≠ "")).map pyLower
  | .jstr s =>
    (((splitChar ',' (semiToComma s).data).map (fun p => pyLower (pyStrip ⟨p⟩))).filter (· ≠ ""))
  | _ => []

def fallbackInsight : String :=
  "Evidence suggests structured execution improves outcomes under constraints."

def fallbackHint : String :=
  "Define one concrete next step and execute within the next focused block."

def fallbackUrl : String := "https://doi.org/"

/-- `f"paper-{abs(hash(title + str(year))) % 1_000_000}"` (script line 87);
`hash` is the process-salted Python builtin, passed in as a parameter. -/
def derivedId (hash : String → Int) (title : String) (year : Int) : String :=
  "paper-" ++ toString ((hash (title ++ toString year)).natAbs % 1000000)

def attrErrMsg : String := "AttributeError: decoded line is not a JSON object"

def valueErrMsg : String := "ValueError: invalid year value"

def jsonErrMsg : String := "json.decoder.JSONDecodeError"

def missingErrMsg : String := "FileNotFoundError: missing input corpus file"

/-- The per-record body of `load_jsonl` (script lines 81–105): validate and
default-fill one decoded record. `Except.error` models a raised exception,
`.ok none` the silent skip, `.ok (some p)` a normalized `Paper`. -/
def normalizeRecord (hash : String → Int) (row : JVal) : Except String (Option Paper) :=
  match row with
  | .jobj fields =>
    let title := pyStrip (pyStr (jget fields "title" (.jstr "")))
    match pyInt (pyOr (jget fields "year" (.jint 0)) (.jint 0)) with
    | none => .error valueErrMsg
    | some year =>
      if title = "" ∨ year ≤ 0 then .ok none
      else
        let domain := pyLower (pyStrip (pyStr (pyOr (jget fields "domain" .jnull) (.jstr "execution"))))
        let insight := pyStrip (pyStr (pyOr (jget fields "actionable_insight" .jnull) (.jstr "")))
        let hint := pyStrip (pyStr (pyOr (jget fields "action_hint" .jnull) (.jstr "")))
        let url := pyStrip (pyStr (pyOr (jget fields "source_url" .jnull)
          (pyOr (jget fields "doi" .jnull) (.jstr ""))))
        let kws := normalize_keywords (jget fields "keywords" (.jarr []))
        let pid := pyStrip (pyStr (pyOr (jget fields "id" .jnull)
          (.jstr (derivedId hash title year))))
        .ok (some
          { id := pid
            title := title
            year := year
            domain := domain
            actionable_insight := if insight = "" then fallbackInsight else insight
            action_hint := if hint = "" then fallbackHint else hint
            source_url := if url = "" then fallbackUrl else url
            keywords := if kws = [] then [domain, "execution", "atlas"] else kws })
  | _ => .error attrErrMsg

/-! ## Corpus loader and deduplicator (script lines 70–111) -/

/-- Process the lines of one input file (script lines 76–105): skip blank
lines, decode the rest with `jparse` (= `json.loads`, propagating its
failure), normalize, and collect the surviving papers in order. -/
def parseLines (jparse : String → Option JVal) (hash : String → Int) :
    List String → Except String (List Paper)
  | [] => .ok []
  | raw :: rest =>
    let line := pyStrip raw
    if line = "" then parseLines jparse hash rest
    else
      match jparse line with
      | none => .error jsonErrMsg
      | some row =>
        match normalizeRecord hash row with
        | .error e => .error e
        | .ok none => parseLines jparse hash rest
        | .ok (some p) => (parseLines jparse hash rest).map (fun ps => p :: ps)

/-- Iterate over the declared input sources (script lines 72–105); a `none`
source is a file that does not exist and raises `FileNotFoundError`. -/
def loadRows (jparse : String → Option JVal) (hash : String → Int) :
    List (Option String) → Except String (List Paper)
  | [] => .ok []
  | none :: _ => .error missingErrMsg
  | some content :: rest => do
    let ps ← parseLines jparse hash (splitLines content)
    let qs ← loadRows jparse hash rest
    .ok (ps ++ qs)

/-- The dedup key `(row['title'].lower(), row['year'])` (script line 109). -/
def paperKey (p : Paper) : String × Int := (pyLower p.title, p.year)

/-- One Python `dict` assignment `d[k] = v`: replace in place if the key is
present, else append (insertion order is preserved, as for `dict`). -/
def dictInsert {α β : Type} [DecidableEq α] (m : List (α × β)) (k : α) (v : β) :
    List (α × β) :=
  if k ∈ m.map Prod.fst then
    m.map (fun kv => if kv.1 = k then (kv.1, v) else kv)
  else m ++ [(k, v)]

/-- The dedup dictionary of script lines 107–110. -/
def dedupDict (rows : List Paper) : List ((String × Int) × Paper) :=
  rows.foldl (fun m r => dictInsert m (paperKey r) r) []

/-- The sort order `key=lambda r: (-r['year'], r['title'])` of script
line 111: descending year, then ascending title. -/
def paperLE (a b : Paper) : Prop :=
  b.year < a.year ∨ (a.year = b.year ∧ strLe a.title b.title = true)

instance : DecidableRel paperLE := fun a b =>
  inferInstanceAs (Decidable (b.year < a.year ∨ (a.year = b.year ∧ strLe a.title b.title = true)))

/-- `sorted(dedup.values(), key=...)` (script line 111). The sort keys of the
dedup values are pairwise distinct (proved below), so any sorted permutation
— here a structurally recursive insertion sort — is the unique result Python
produces. -/
def dedup_sorted (rows : List Paper) : List Paper :=
  List.insertionSort paperLE ((dedupDict rows).map Prod.snd)

/-- `load_jsonl` (script lines 70–111). -/
def load_jsonl (jparse : String → Option JVal) (hash : String → Int)
    (sources : List (Option String)) : Except String (List Paper) :=
  (loadRows jparse hash sources).map dedup_sorted

/-! ## Domain Classifier (script lines 18–58 and 135–136) -/

def LABEL_MAP : List (String × String) :=
  [("wealth", "travel_design_revenue"),
   ("travel", "travel_design_journey_ops"),
   ("mobility", "travel_design_journey_ops"),
   ("operations", "travel_design_journey_ops"),
   ("novelty", "travel_design_journey_ops"),
   ("exploration", "travel_design_journey_ops"),
   ("reflection", "travel_design_strategy"),
   ("safety", "travel_design_resilience"),
   ("resilience", "travel_design_resilience"),
   ("recovery", "travel_design_recovery"),
   ("health", "travel_design_recovery"),
   ("wellbeing", "travel_design_recovery"),
   ("neuroplasticity", "travel_design_recovery"),
   ("cognitive-aging", "travel_design_recovery"),
   ("brain-health", "travel_design_recovery"),
   ("cognitive-reserve", "travel_design_recovery"),
   ("execution", "travel_design_execution"),
   ("productivity", "travel_design_execution"),
   ("planning", "travel_design_strategy"),
   ("decision-quality", "travel_design_strategy"),
   ("motivation", "travel_design_strategy"),
   ("skill-building", "travel_design_strategy"),
   ("team-ops", "travel_design_strategy"),
   ("emergency-response", "travel_design_emergency_command"),
   ("emergency-preparedness", "travel_design_emergency_command"),
   ("emergency-management", "travel_design_emergency_command"),
   ("crisis-management", "travel_design_emergency_command"),
   ("crisis-planning", "travel_design_emergency_command"),
   ("incident-command", "travel_design_emergency_command"),
   ("human-problem-solving", "travel_design_human_problem_solving"),
   ("human-performance", "travel_design_human_problem_solving"),
   ("biological-performance", "travel_design_human_problem_solving"),
   ("environmental-performance", "travel_design_human_problem_solving"),
   ("problem-solving", "travel_design_human_problem_solving"),
   ("technology-innovation", "travel_design_tech_innovation"),
   ("systems-innovation", "travel_design_tech_innovation"),
   ("digital-innovation", "travel_design_tech_innovation"),
   ("physical-innovation", "travel_design_tech_innovation"),
   ("innovation", "travel_design_tech_innovation")]

/-- `paper_to_label` (script lines 135–136): exact-match table lookup with
the documented `travel_design_strategy` fallback. -/
def paper_to_label (domain : String) : String :=
  match alookup LABEL_MAP domain with
  | some l => l
  | none => "travel_design_strategy"

/-! ## Training Row Synthesizer (script lines 139–200) -/

structure TrainingRow where
  prompt : String
  label : String
  next_action : String
  paper_id : String
  source_url : String
deriving DecidableEq

/-- Bonus-prompt domain group of script line 153. -/
def NEURO_DOMAINS : List String :=
  ["travel", "mobility", "recovery", "health", "wellbeing", "skill-building", "motivation"]

/-- Bonus-prompt domain group of script lines 158–165. -/
def EMERGENCY_DOMAINS : List String :=
  ["emergency-response", "emergency-preparedness", "emergency-management",
   "crisis-management", "crisis-planning", "incident-command"]

/-- Bonus-prompt domain group of script lines 170–176. -/
def HUMAN_DOMAINS : List String :=
  ["human-problem-solving", "human-performance", "biological-performance",
   "environmental-performance", "problem-solving"]

/-- Bonus-prompt domain group of script lines 181–187. -/
def INNOVATION_DOMAINS : List String :=
  ["technology-innovation", "systems-innovation", "digital-innovation",
   "physical-innovation", "innovation"]

def neuroPrompt : String :=
  "Travel design neuro brief: use controlled novelty plus structured reflection to improve adaptability and protect long-term cognitive vitality."

def emergencyPrompt : String :=
  "Emergency command brief: convert this evidence into a triage-stabilize-communicate-escalate protocol for immediate field execution."

def humanPrompt : String :=
  "Human problem-solving optimization brief: define biological and environmental conditions that maximize cognitive throughput under uncertainty."

def innovationPrompt : String :=
  "Innovation systems brief: translate this into a digital+physical prototype loop with safety gates and clear validation metrics."

/-- The prompt list built for one paper (script lines 148–191): three base
template prompts, then one bonus prompt per matched domain group. -/
def prompts_for (p : Paper) : List String :=
  ["Travel design brief: use evidence from '" ++ p.title ++
     "' to define one next field action for " ++ p.domain ++ ".",
   "Research-backed travel design execution request: " ++ p.actionable_insight,
   "Translate this scientific finding into Atlas travel design workflow now: " ++ p.action_hint]
  ++ (if p.domain ∈ NEURO_DOMAINS then [neuroPrompt] else [])
  ++ (if p.domain ∈ EMERGENCY_DOMAINS then [emergencyPrompt] else [])
  ++ (if p.domain ∈ HUMAN_DOMAINS then [humanPrompt] else [])
  ++ (if p.domain ∈ INNOVATION_DOMAINS then [innovationPrompt] else [])

/-- The rows emitted for one paper (script lines 192–199). -/
def training_rows_for (p : Paper) : List TrainingRow :=
  (prompts_for p).map (fun prompt =>
    { prompt := prompt
      label := paper_to_label p.domain
      next_action := p.action_hint
      paper_id := p.id
      source_url := p.source_url })

/-- `build_training_rows` (script lines 139–200). -/
def build_training_rows (rows : List Paper) : List TrainingRow :=
  rows.foldl (fun acc row => acc ++ training_rows_for row) []

/-! ## Base Merger (script lines 210–251) -/

/-- A persisted base-dataset row (provenance fields stripped). -/
structure BaseRow where
  prompt : String
  label : String
  next_action : String
deriving DecidableEq

/-- The merge key: `prompt.strip().lower()`. -/
def normKey (s : String) : String := pyLower (pyStrip s)

def keyB (b : BaseRow) : String := normKey b.prompt

def keyG (r : TrainingRow) : String := normKey r.prompt

/-- The `prompt_to_index` dict built at script lines 219–223: one entry per
existing row with a non-empty normalized prompt; on duplicate keys the later
assignment wins, so later-row entries precede earlier ones here (first match
of `lookupKey` = last `dict` write). -/
def buildIdxFrom : List BaseRow → Nat → List (String × Nat)
  | [], _ => []
  | b :: rest, i =>
    if keyB b = "" then buildIdxFrom rest (i + 1)
    else buildIdxFrom rest (i + 1) ++ [(keyB b, i)]

def prompt_to_index (existing : List BaseRow) : List (String × Nat) :=
  buildIdxFrom existing 0

/-- Lookup in the modelled dict (first match; inserts prepend). -/
def lookupKey : List (String × Nat) → String → Option Nat
  | [], _ => none
  | (k, i) :: rest, key => if key = k then some i else lookupKey rest key

/-- Explicit state for the merge loop of script lines 225–248. -/
structure MergeState where
  merged : List BaseRow
  index : List (String × Nat)
  added : Nat
  updated : Nat

def dummyRow : BaseRow := ⟨"", "", ""⟩

/-- One iteration of the merge loop (script lines 228–248). The looked-up
index is always in range (maintained by the loop), so the `getD` default is
never read; the two conditional in-place field writes of the script leave the
row with exactly the new `label` and `next_action`, written here as a single
record update, and writing an index entry on append models
`prompt_to_index[key] = len(merged) - 1`. -/
def mergeStep (st : MergeState) (row : TrainingRow) : MergeState :=
  let key := keyG row
  match lookupKey st.index key with
  | some idx =>
    let old := st.merged.getD idx dummyRow
    let changed := (old.label != row.label) || (old.next_action != row.next_action)
    { st with
      merged := st.merged.set idx { old with label := row.label, next_action := row.next_action }
      updated := if changed then st.updated + 1 else st.updated }
  | none =>
    { merged := st.merged ++ [⟨row.prompt, row.label, row.next_action⟩]
      index := (key, st.merged.length) :: st.index
      added := st.added + 1
      updated := st.updated }

/-- `merge_into_base` (script lines 210–251) on the decoded contents of the
base dataset file: returns the rewritten dataset together with
`(added, updated)`; the script's third return value is the length of the
first component. File round-tripping (write then re-read) is the out-of-scope
I/O layer and is treated as the identity on rows. -/
def merge_into_base (existing : List BaseRow) (generated : List TrainingRow) :
    List BaseRow × Nat × Nat :=
  let final := generated.foldl mergeStep
    { merged := existing, index := prompt_to_index existing, added := 0, updated := 0 }
  (final.merged, final.added, final.updated)

/-! ## Declarative vocabulary for the merger

These definitions follow the specification's description of the merge
outcome (additions, updates, untouched rows, per-key duplicate chains); the
theorems below compare `merge_into_base` against them. -/

/-- The persisted shape of a generated row: provenance fields stripped
(script lines 242–246). -/
def stripRow (r : TrainingRow) : BaseRow := ⟨r.prompt, r.label, r.next_action⟩

/-- Overwrite a base row's `label` and `next_action` with those of the
generated row matching its key, if any (the spec's update rule, with the
first matching generated row — unique when generated keys are distinct). -/
def overwriteBy (gen : List TrainingRow) (b : BaseRow) : BaseRow :=
  match gen.find? (fun r => keyG r == keyB b) with
  | some r => { b with label := r.label, next_action := r.next_action }
  | none => b

/-- A generated row whose key matches no base row (the spec's addition
condition). -/
def freshRow (existing : List BaseRow) (r : TrainingRow) : Bool :=
  existing.all (fun b => keyB b != keyG r)

/-- A generated row whose key matches a base row that differs in `label` or
`next_action` (the spec's update condition). -/
def updHit (existing : List BaseRow) (r : TrainingRow) : Bool :=
  existing.any (fun b =>
    keyB b == keyG r && (b.label != r.label || b.next_action != r.next_action))

/-- The spec's description of the written dataset: every base row with its
fields overwritten where a generated key matches, followed by the stripped
fresh generated rows in order. -/
def mergedCF (existing : List BaseRow) (gen : List TrainingRow) : List BaseRow :=
  existing.map (overwriteBy gen) ++ (gen.filter (freshRow existing)).map stripRow

/-- The stored `(label, next_action)` value after a chain of same-key
generated rows has been applied on top of an initial value. -/
def chainState : String × String → List TrainingRow → String × String
  | st, [] => st
  | _, r :: rs => chainState (r.label, r.next_action) rs

/-- The number of updates a chain of same-key generated rows performs: each
row differing from the then-current stored `(label, next_action)` counts one
and overwrites the stored value. -/
def chainUpdates : String → String → List TrainingRow → Nat
  | _, _, [] => 0
  | lbl, act, r :: rs =>
    if lbl ≠ r.label ∨ act ≠ r.next_action then 1 + chainUpdates r.label r.next_action rs
    else chainUpdates lbl act rs

/-- Soundness of the merge index: every entry points at an in-range merged
row with the entry's key. -/
def IdxSound (st : MergeState) : Prop :=
  ∀ k i, lookupKey st.index k = some i → ∃ b, st.merged[i]? = some b ∧ keyB b = k

/-- Exactness of the merge index: an entry for `k` points at position `i`
iff the merged row at `i` has key `k` (usable when all keys are distinct and
non-empty). -/
def IdxExact (st : MergeState) : Prop :=
  ∀ k i, lookupKey st.index k = some i ↔ ∃ b, st.merged[i]? = some b ∧ keyB b = k

/-! ## Basic lemmas about the modelled dict structures -/

theorem lookupKey_append (A B : List (String × Nat)) (k : String) :
    lookupKey (A ++ B) k = (lookupKey A k).or (lookupKey B k) := by
  induction A with
  | nil => simp [lookupKey]
  | cons e A ih =>
    obtain ⟨k', i⟩ := e
    by_cases h : k = k' <;> simp [lookupKey, h, ih]

theorem nodup_pos_inj {α : Type} {l : List α} (hn : l.Nodup) {i j : Nat} {a : α}
    (hi : l[i]? = some a) (hj : l[j]? = some a) : i = j := by
  induction l generalizing i j with
  | nil => simp at hi
  | cons x xs ih =>
    rcases List.nodup_cons.1 hn with ⟨hx, hxs⟩
    match i, j with
    | 0, 0 => rfl
    | 0, j + 1 =>
      simp only [List.getElem?_cons_zero, Option.some.injEq] at hi
      simp only [List.getElem?_cons_succ] at hj
      exact absurd (List.mem_iff_getElem?.2 ⟨j, hj⟩) (hi ▸ hx)
    | i + 1, 0 =>
      simp only [List.getElem?_cons_zero, Option.some.injEq] at hj
      simp only [List.getElem?_cons_succ] at hi
      exact absurd (List.mem_iff_getElem?.2 ⟨i, hi⟩) (hj ▸ hx)
    | i + 1, j + 1 =>
      simp only [List.getElem?_cons_succ] at hi hj
      exact congrArg Nat.succ (ih hxs hi hj)

theorem buildIdxFrom_sound : ∀ (l : List BaseRow) (s : Nat) (k : String) (i : Nat),
    lookupKey (buildIdxFrom l s) k = some i →
    ∃ j b, l[j]? = some b ∧ keyB b = k ∧ i = s + j := by
  intro l
  induction l with
  | nil => intro s k i h; simp [buildIdxFrom, lookupKey] at h
  | cons b0 l ih =>
    intro s k i h
    unfold buildIdxFrom at h
    by_cases hk0 : keyB b0 = ""
    · rw [if_pos hk0] at h
      obtain ⟨j, b, hj, hkb, hi⟩ := ih (s + 1) k i h
      exact ⟨j + 1, b, by simpa using hj, hkb, by omega⟩
    · rw [if_neg hk0, lookupKey_append] at h
      cases htail : lookupKey (buildIdxFrom l (s + 1)) k with
      | some i2 =>
        rw [htail] at h
        simp only [Option.or, Option.some.injEq] at h
        obtain ⟨j, b, hj, hkb, hi⟩ := ih (s + 1) k i2 htail
        exact ⟨j + 1, b, by simpa using hj, hkb, by omega⟩
      | none =>
        rw [htail] at h
        simp only [Option.or] at h
        unfold lookupKey at h
        by_cases hkk : k = keyB b0
        · rw [if_pos hkk] at h
          simp only [Option.some.injEq] at h
          exact ⟨0, b0, by simp, hkk.symm, by omega⟩
        · rw [if_neg hkk] at h
          simp [lookupKey] at h

theorem buildIdxFrom_complete : ∀ (l : List BaseRow) (s : Nat),
    (∀ b ∈ l, keyB b ≠ "") → ((l.map keyB).Nodup) →
    ∀ (k : String) (j : Nat) (b : BaseRow), l[j]? = some b → keyB b = k →
    lookupKey (buildIdxFrom l s) k = some (s + j) := by
  intro l
  induction l with
  | nil => intro s _ _ k j b hj; simp at hj
  | cons b0 l ih =>
    intro s hn hd k j b hj hkb
    have hn' : ∀ b ∈ l, keyB b ≠ "" := fun b hb => hn b (List.mem_cons_of_mem _ hb)
    have hd' : (l.map keyB).Nodup := (List.nodup_cons.1 (by simpa using hd)).2
    have hnotin : keyB b0 ∉ l.map keyB := (List.nodup_cons.1 (by simpa using hd)).1
    have hk0 : keyB b0 ≠ "" := hn b0 (List.mem_cons_self b0 l)
    unfold buildIdxFrom
    rw [if_neg hk0, lookupKey_append]
    match j with
    | 0 =>
      simp only [List.getElem?_cons_zero, Option.some.injEq] at hj
      rw [← hj] at hkb
      have htail : lookupKey (buildIdxFrom l (s + 1)) k = none := by
        cases htail : lookupKey (buildIdxFrom l (s + 1)) k with
        | none => rfl
        | some i2 =>
          obtain ⟨j2, b2, hj2, hkb2, _⟩ := buildIdxFrom_sound l (s + 1) k i2 htail
          have hkmem : k ∈ l.map keyB := by
            rw [← hkb2]
            exact List.mem_map_of_mem keyB (List.mem_iff_getElem?.2 ⟨j2, hj2⟩)
          rw [hkb] at hnotin
          exact absurd hkmem hnotin
      rw [htail]
      simp only [Option.or]
      unfold lookupKey
      rw [if_pos hkb.symm]
      simp
    | j + 1 =>
      simp only [List.getElem?_cons_succ] at hj
      have hrec := ih (s + 1) hn' hd' k j b hj hkb
      rw [hrec]
      simp only [Option.or]
      congr 1
      omega

theorem keyB_stripRow (r : TrainingRow) : keyB (stripRow r) = keyG r := rfl

theorem keyB_overwriteBy (gen : List TrainingRow) (b : BaseRow) :
    keyB (overwriteBy gen b) = keyB b := by
  unfold overwriteBy
  cases gen.find? (fun r => keyG r == keyB b) <;> rfl

theorem overwriteBy_eq_self {gen : List TrainingRow} {b : BaseRow}
    (h : ∀ r ∈ gen, keyG r ≠ keyB b) : overwriteBy gen b = b := by
  unfold overwriteBy
  have hf : gen.find? (fun r => keyG r == keyB b) = none :=
    List.find?_eq_none.2 (fun r hr => by simp [h r hr])
  rw [hf]

theorem overwriteBy_append_notin {p : List TrainingRow} {r : TrainingRow} {b : BaseRow}
    (h : keyG r ≠ keyB b) : overwriteBy (p ++ [r]) b = overwriteBy p b := by
  unfold overwriteBy
  rw [List.find?_append]
  have hbeq : (keyG r == keyB b) = false := beq_eq_false_iff_ne.2 h
  have h1 : List.find? (fun r' => keyG r' == keyB b) [r] = none := by
    simp [List.find?, hbeq]
  rw [h1]
  cases List.find? (fun r' => keyG r' == keyB b) p <;> rfl

theorem overwriteBy_append_hit {p : List TrainingRow} {r : TrainingRow} {b : BaseRow}
    (hp : ∀ r' ∈ p, keyG r' ≠ keyB b) (h : keyG r = keyB b) :
    overwriteBy (p ++ [r]) b = { b with label := r.label, next_action := r.next_action } := by
  unfold overwriteBy
  rw [List.find?_append]
  have h1 : List.find? (fun r' => keyG r' == keyB b) p = none :=
    List.find?_eq_none.2 (fun x hx => by simp [hp x hx])
  have h2 : List.find? (fun r' => keyG r' == keyB b) [r] = some r := by simp [List.find?, h]
  rw [h1, h2, Option.none_or]

theorem freshRow_eq_false {ex : List BaseRow} {b : BaseRow} {r : TrainingRow}
    (hb : b ∈ ex) (hk : keyB b = keyG r) : freshRow ex r = false := by
  cases hf : freshRow ex r
  · rfl
  · have hall : ∀ x ∈ ex, ¬ keyB x = keyG r := by simpa [freshRow] using hf
    exact absurd hk (hall b hb)

theorem freshRow_eq_true {ex : List BaseRow} {r : TrainingRow}
    (h : ∀ b ∈ ex, keyB b ≠ keyG r) : freshRow ex r = true := by
  unfold freshRow
  exact List.all_eq_true.2 (fun b hb => by simp [h b hb])

theorem updHit_eq_false_of_no_match {ex : List BaseRow} {r : TrainingRow}
    (h : ∀ b ∈ ex, keyB b ≠ keyG r) : updHit ex r = false := by
  cases hf : updHit ex r
  · rfl
  · obtain ⟨b, hb, hkeq, hdiff⟩ :
        ∃ b ∈ ex, keyB b = keyG r ∧ (¬b.label = r.label ∨ ¬b.next_action = r.next_action) := by
      simpa [updHit] using hf
    exact absurd hkeq (h b hb)

theorem updHit_unique {ex : List BaseRow} (hbd : (ex.map keyB).Nodup)
    {b0 : BaseRow} (hb0 : b0 ∈ ex) {r : TrainingRow} (hk : keyB b0 = keyG r) :
    updHit ex r = ((b0.label != r.label) || (b0.next_action != r.next_action)) := by
  rw [Bool.eq_iff_iff]
  simp only [updHit, List.any_eq_true, Bool.and_eq_true, beq_iff_eq, Bool.or_eq_true, bne_iff_ne]
  constructor
  · rintro ⟨b, hb, hkeq, hdiff⟩
    have hbb0 : b = b0 := List.inj_on_of_nodup_map hbd hb hb0 (hkeq.trans hk.symm)
    exact hbb0 ▸ hdiff
  · intro hdiff
    exact ⟨b0, hb0, hk, hdiff⟩

theorem filter_singleton_of_unique (q : BaseRow → Bool) :
    ∀ (l : List BaseRow) (pos : Nat) (X : BaseRow),
    l[pos]? = some X → q X = true →
    (∀ i b, l[i]? = some b → q b = true → i = pos) →
    l.filter q = [X] := by
  intro l
  induction l with
  | nil => intro pos X h; simp at h
  | cons x xs ih =>
    intro pos X hpos hqX huniq
    match pos with
    | 0 =>
      simp only [List.getElem?_cons_zero, Option.some.injEq] at hpos
      rw [List.filter_cons, if_pos (hpos ▸ hqX)]
      rw [hpos]
      congr 1
      rw [List.filter_eq_nil_iff]
      intro b hb hqb
      obtain ⟨n, hn⟩ := List.mem_iff_getElem?.1 hb
      have := huniq (n + 1) b (by simpa using hn) hqb
      omega
    | pos + 1 =>
      simp only [List.getElem?_cons_succ] at hpos
      have hqx : q x = false := by
        cases hq : q x
        · rfl
        · have := huniq 0 x (by simp) hq
          omega
      rw [List.filter_cons, if_neg (by simp [hqx])]
      exact ih pos X hpos hqX (fun i b hi hq => by
        have := huniq (i + 1) b (by simpa using hi) hq
        omega)

theorem chainState_append (st : String × String) (a b : List TrainingRow) :
    chainState st (a ++ b) = chainState (chainState st a) b := by
  induction a generalizing st with
  | nil => rfl
  | cons r rs ih => simp [chainState, ih]

theorem chainUpdates_concat (L A : String) (ss : List TrainingRow) (r : TrainingRow) :
    chainUpdates L A (ss ++ [r]) = chainUpdates L A ss +
      (if (chainState (L, A) ss).1 ≠ r.label ∨ (chainState (L, A) ss).2 ≠ r.next_action
        then 1 else 0) := by
  induction ss generalizing L A with
  | nil =>
    simp only [List.nil_append, chainUpdates, chainState]
    split <;> simp
  | cons s ss ih =>
    by_cases hc : L ≠ s.label ∨ A ≠ s.next_action
    · rw [show (s :: ss) ++ [r] = s :: (ss ++ [r]) from rfl]
      simp only [chainUpdates, chainState, if_pos hc]
      rw [ih]
      omega
    · rw [not_or] at hc
      obtain ⟨hL, hA⟩ := hc
      rw [not_ne_iff] at hL hA
      subst hL; subst hA
      rw [show (s :: ss) ++ [r] = s :: (ss ++ [r]) from rfl]
      simp only [chainUpdates, chainState,
        if_neg (by simp : ¬(s.label ≠ s.label ∨ s.next_action ≠ s.next_action))]
      exact ih _ _

theorem chainState_eq_getLastD (ss : List TrainingRow) :
    ∀ s0 : TrainingRow,
    chainState (s0.label, s0.next_action) ss =
      ((ss.getLastD s0).label, (ss.getLastD s0).next_action) := by
  induction ss with
  | nil => intro s0; rfl
  | cons r rs ih =>
    intro s0
    rw [List.getLastD_cons]
    exact ih r

theorem exists_key_congr {o1 o2 : Option BaseRow}
    (h : o1.map keyB = o2.map keyB) (k : String) :
    (∃ b, o1 = some b ∧ keyB b = k) ↔ (∃ b, o2 = some b ∧ keyB b = k) := by
  cases o1 <;> cases o2 <;> simp_all

theorem mergeStep_update {st : MergeState} {row : TrainingRow} {idx : Nat}
    (h : lookupKey st.index (keyG row) = some idx) :
    mergeStep st row = { st with
      merged := st.merged.set idx
        { st.merged.getD idx dummyRow with label := row.label, next_action := row.next_action }
      updated := if ((st.merged.getD idx dummyRow).label != row.label) ||
          ((st.merged.getD idx dummyRow).next_action != row.next_action)
        then st.updated + 1 else st.updated } := by
  simp only [mergeStep, h]

theorem mergeStep_append {st : MergeState} {row : TrainingRow}
    (h : lookupKey st.index (keyG row) = none) :
    mergeStep st row = { merged := st.merged ++ [stripRow row]
                         index := (keyG row, st.merged.length) :: st.index
                         added := st.added + 1
                         updated := st.updated } := by
  simp only [mergeStep, h]
  rfl

/-- Closed-form characterization of the merge loop: starting from a state
that reflects the processed prefix `p`, folding the remaining rows produces
the spec-side description of the outcome. Requires pairwise-distinct keys on
both sides (base rows and generated rows). -/
theorem merge_foldl_closed (ex : List BaseRow) (g : List TrainingRow)
    (hbd : (ex.map keyB).Nodup) (hgd : (g.map keyG).Nodup) :
    ∀ (rest p : List TrainingRow) (st : MergeState),
    g = p ++ rest →
    st.merged = mergedCF ex p →
    st.added = (p.filter (freshRow ex)).length →
    st.updated = (p.filter (updHit ex)).length →
    IdxExact st →
    (List.foldl mergeStep st rest).merged = mergedCF ex g ∧
    (List.foldl mergeStep st rest).added = (g.filter (freshRow ex)).length ∧
    (List.foldl mergeStep st rest).updated = (g.filter (updHit ex)).length := by
  intro rest
  induction rest with
  | nil =>
    intro p st hg hm ha hu _
    rw [List.append_nil] at hg
    subst hg
    rw [List.foldl_nil]
    exact ⟨hm, ha, hu⟩
  | cons r rest ih =>
    intro p st hg hm ha hu hidx
    rw [List.foldl_cons]
    have hg' : g = (p ++ [r]) ++ rest := by
      rw [hg, List.append_assoc, List.singleton_append]
    have hgdpr : (List.map keyG p ++ keyG r :: List.map keyG rest).Nodup := by
      have h := hgd
      rw [hg, List.map_append, List.map_cons] at h
      exact h
    have hknotp : keyG r ∉ List.map keyG p := fun hmem =>
      (List.nodup_append.1 hgdpr).2.2 hmem (List.mem_cons_self _ _)
    have hmkey : ∀ (i : Nat) (b : BaseRow),
        st.merged[i]? = some b → keyB b = keyG r → keyG r ∈ ex.map keyB := by
      intro i b hib hkb
      have hbmem : b ∈ st.merged := List.mem_iff_getElem?.2 ⟨i, hib⟩
      rw [hm] at hbmem
      rcases List.mem_append.1 hbmem with hL | hR
      · obtain ⟨b0, hb0, hb0e⟩ := List.mem_map.1 hL
        rw [← hkb, ← hb0e, keyB_overwriteBy]
        exact List.mem_map_of_mem keyB hb0
      · obtain ⟨r0, hr0, hr0e⟩ := List.mem_map.1 hR
        exfalso
        apply hknotp
        rw [← hkb, ← hr0e, keyB_stripRow]
        exact List.mem_map_of_mem keyG (List.mem_of_mem_filter hr0)
    by_cases hmem : keyG r ∈ ex.map keyB
    · -- key already among the base rows: in-place update
      obtain ⟨kb, hkbmem, hkbk⟩ := List.mem_map.1 hmem
      obtain ⟨j, hjlen, hjval⟩ := List.getElem_of_mem hkbmem
      have hexj : ex[j]? = some kb := by rw [List.getElem?_eq_getElem hjlen, hjval]
      have hpkb : ∀ r' ∈ p, keyG r' ≠ keyB kb := by
        intro r' hr' hct
        exact hknotp (by rw [← hkbk, ← hct]; exact List.mem_map_of_mem keyG hr')
      have hmj : st.merged[j]? = some kb := by
        rw [hm]
        unfold mergedCF
        rw [List.getElem?_append, if_pos (by simpa using hjlen), List.getElem?_map, hexj]
        simp [overwriteBy_eq_self hpkb]
      have hlk : lookupKey st.index (keyG r) = some j :=
        (hidx (keyG r) j).2 ⟨kb, hmj, hkbk⟩
      rw [mergeStep_update hlk]
      have hgetD : st.merged.getD j dummyRow = kb := by
        rw [List.getD_eq_getElem?_getD, hmj]
        rfl
      have hfr : freshRow ex r = false := freshRow_eq_false hkbmem hkbk
      have hfilter : (p ++ [r]).filter (freshRow ex) = p.filter (freshRow ex) := by
        rw [List.filter_append, List.filter_cons, if_neg (by simp [hfr]), List.filter_nil,
          List.append_nil]
      have hkj : ∀ (n : Nat) (b : BaseRow), n ≠ j → ex[n]? = some b → keyG r ≠ keyB b := by
        intro n b hn hexn hct
        apply hn
        apply nodup_pos_inj hbd (a := keyG r) (i := n) (j := j)
        · rw [List.getElem?_map, hexn]
          simp [← hct]
        · rw [List.getElem?_map, hexj]
          simp [hkbk]
      refine ih (p ++ [r]) _ hg' ?_ ?_ ?_ ?_
      · -- merged component
        show st.merged.set j _ = mergedCF ex (p ++ [r])
        rw [hgetD]
        apply List.ext_getElem?
        intro n
        rw [List.getElem?_set]
        unfold mergedCF
        rw [hfilter]
        by_cases hn : j = n
        · subst hn
          have hjm : j < st.merged.length := by
            rcases List.getElem?_eq_some.1 hmj with ⟨h, _⟩
            exact h
          rw [if_pos rfl, if_pos hjm, List.getElem?_append,
            if_pos (by simpa using hjlen), List.getElem?_map, hexj]
          have := overwriteBy_append_hit hpkb hkbk.symm
          simp [this]
        · rw [if_neg hn, hm]
          unfold mergedCF
          rw [List.getElem?_append, List.getElem?_append]
          have hlens : (List.map (overwriteBy p) ex).length = (List.map (overwriteBy (p ++ [r])) ex).length := by
            simp
          by_cases hnlt : n < (List.map (overwriteBy p) ex).length
          · rw [if_pos hnlt, if_pos (hlens ▸ hnlt), List.getElem?_map, List.getElem?_map]
            have hnex : n < ex.length := by simpa using hnlt
            rw [List.getElem?_eq_getElem hnex]
            have hne : keyG r ≠ keyB ex[n] :=
              hkj n ex[n] (fun he => hn he.symm) (List.getElem?_eq_getElem hnex)
            simp only [Option.map_some']
            rw [overwriteBy_append_notin hne]
          · rw [if_neg hnlt, if_neg (hlens ▸ hnlt)]
            simp
      · -- added component
        show st.added = _
        rw [hfilter, ha]
      · -- updated component
        show (if _ then st.updated + 1 else st.updated) = _
        rw [hgetD, List.filter_append, List.filter_cons, ← updHit_unique hbd hkbmem hkbk]
        cases hupd : updHit ex r <;> simp [hupd, hu]
      · -- index exactness
        intro k' i
        show lookupKey st.index k' = some i ↔ _
        rw [hidx k' i]
        apply exists_key_congr
        rw [hgetD, List.getElem?_set]
        by_cases hn : j = i
        · subst hn
          have hjm : j < st.merged.length := by
            rcases List.getElem?_eq_some.1 hmj with ⟨h, _⟩
            exact h
          rw [if_pos rfl, if_pos hjm, hmj]
          rfl
        · rw [if_neg hn]
    · -- fresh key: append
      have hlk : lookupKey st.index (keyG r) = none := by
        cases hc : lookupKey st.index (keyG r) with
        | none => rfl
        | some i =>
          obtain ⟨b, hb, hkb⟩ := (hidx (keyG r) i).1 hc
          exact absurd (hmkey i b hb hkb) hmem
      rw [mergeStep_append hlk]
      have hfr : freshRow ex r = true :=
        freshRow_eq_true (fun b hb hct => hmem (hct ▸ List.mem_map_of_mem keyB hb))
      have hfilter : (p ++ [r]).filter (freshRow ex) = p.filter (freshRow ex) ++ [r] := by
        rw [List.filter_append, List.filter_cons, if_pos (by simp [hfr]), List.filter_nil]
      have hupd : updHit ex r = false :=
        updHit_eq_false_of_no_match (fun b hb hct => hmem (hct ▸ List.mem_map_of_mem keyB hb))
      have hover : List.map (overwriteBy (p ++ [r])) ex = List.map (overwriteBy p) ex :=
        List.map_congr_left (fun b hb => overwriteBy_append_notin
          (fun hct => hmem (by rw [hct]; exact List.mem_map_of_mem keyB hb)))
      refine ih (p ++ [r]) _ hg' ?_ ?_ ?_ ?_
      · show st.merged ++ [stripRow r] = mergedCF ex (p ++ [r])
        rw [hm]
        unfold mergedCF
        rw [hfilter, hover, List.map_append, List.append_assoc]
        rfl
      · show st.added + 1 = _
        rw [hfilter, List.length_append, ha]
        rfl
      · show st.updated = _
        rw [List.filter_append, List.filter_cons, if_neg (by simp [hupd]), List.filter_nil,
          List.append_nil, hu]
      · intro k' i
        show lookupKey ((keyG r, st.merged.length) :: st.index) k' = some i ↔
          ∃ b, (st.merged ++ [stripRow r])[i]? = some b ∧ keyB b = k'
        unfold lookupKey
        by_cases hk' : k' = keyG r
        · subst hk'
          rw [if_pos rfl]
          constructor
          · intro hsome
            injection hsome with hi
            refine ⟨stripRow r, ?_, keyB_stripRow r⟩
            rw [← hi]
            exact List.getElem?_concat_length st.merged (stripRow r)
          · rintro ⟨b, hb, hkb⟩
            rw [List.getElem?_append] at hb
            by_cases hilt : i < st.merged.length
            · rw [if_pos hilt] at hb
              exact absurd (hmkey i b hb hkb) hmem
            · rw [if_neg hilt] at hb
              rcases Nat.exists_eq_add_of_le (Nat.le_of_not_lt hilt) with ⟨d, hd⟩
              cases d with
              | zero => rw [hd]; simp
              | succ m =>
                exfalso
                rw [hd, show st.merged.length + (m + 1) - st.merged.length = m + 1 by omega]
                  at hb
                simp at hb
        · rw [if_neg hk']
          constructor
          · intro hsome
            obtain ⟨b, hb, hkb⟩ := (hidx k' i).1 hsome
            have hilt : i < st.merged.length := by
              rcases List.getElem?_eq_some.1 hb with ⟨h, _⟩
              exact h
            refine ⟨b, ?_, hkb⟩
            rw [List.getElem?_append, if_pos hilt]
            exact hb
          · rintro ⟨b, hb, hkb⟩
            rw [List.getElem?_append] at hb
            by_cases hilt : i < st.merged.length
            · rw [if_pos hilt] at hb
              exact (hidx k' i).2 ⟨b, hb, hkb⟩
            · rw [if_neg hilt] at hb
              rcases Nat.exists_eq_add_of_le (Nat.le_of_not_lt hilt) with ⟨d, hd⟩
              cases d with
              | zero =>
                exfalso
                rw [hd, show st.merged.length + 0 - st.merged.length = 0 by omega] at hb
                simp only [List.getElem?_cons_zero, Option.some.injEq] at hb
                exact hk' (by rw [← hkb, ← hb, keyB_stripRow])
              | succ m =>
                exfalso
                rw [hd, show st.merged.length + (m + 1) - st.merged.length = m + 1 by omega]
                  at hb
                simp at hb

theorem prompt_to_index_exact (ex : List BaseRow)
    (hbn : ∀ b ∈ ex, keyB b ≠ "") (hbd : (ex.map keyB).Nodup) :
    IdxExact { merged := ex, index := prompt_to_index ex, added := 0, updated := 0 } := by
  intro k i
  show lookupKey (prompt_to_index ex) k = some i ↔ ∃ b, ex[i]? = some b ∧ keyB b = k
  constructor
  · intro h
    obtain ⟨j, b, hj, hkb, hi⟩ := buildIdxFrom_sound ex 0 k i h
    exact ⟨b, by rw [hi, Nat.zero_add]; exact hj, hkb⟩
  · rintro ⟨b, hb, hkb⟩
    have h := buildIdxFrom_complete ex 0 hbn hbd k i b hb hkb
    rw [Nat.zero_add] at h
    exact h

/-- `merge_into_base` computes exactly the spec-side description whenever
base keys are non-empty and pairwise distinct and generated keys are
pairwise distinct. -/
theorem merge_into_base_closed (ex : List BaseRow) (g : List TrainingRow)
    (hbn : ∀ b ∈ ex, keyB b ≠ "") (hbd : (ex.map keyB).Nodup)
    (hgd : (g.map keyG).Nodup) :
    merge_into_base ex g =
      (mergedCF ex g, (g.filter (freshRow ex)).length, (g.filter (updHit ex)).length) := by
  have hm0 : ({ merged := ex, index := prompt_to_index ex, added := 0, updated := 0 } :
      MergeState).merged = mergedCF ex [] := by
    show ex = _
    unfold mergedCF
    rw [List.filter_nil, List.map_nil, List.append_nil]
    rw [show List.map (overwriteBy []) ex = List.map id ex from
      List.map_congr_left (fun b _ => rfl), List.map_id]
  have h := merge_foldl_closed ex g hbd hgd g []
    { merged := ex, index := prompt_to_index ex, added := 0, updated := 0 }
    (by rw [List.nil_append]) hm0 rfl rfl (prompt_to_index_exact ex hbn hbd)
  show ((g.foldl mergeStep _).merged, (g.foldl mergeStep _).added,
    (g.foldl mergeStep _).updated) = _
  refine Prod.ext h.1 (Prod.ext h.2.1 h.2.2)

theorem mergedCF_keys (ex : List BaseRow) (g : List TrainingRow) :
    (mergedCF ex g).map keyB = ex.map keyB ++ (g.filter (freshRow ex)).map keyG := by
  unfold mergedCF
  rw [List.map_append, List.map_map, List.map_map]
  have h1 : List.map (keyB ∘ overwriteBy g) ex = List.map keyB ex :=
    List.map_congr_left (fun b _ => keyB_overwriteBy g b)
  have h2 : List.map (keyB ∘ stripRow) (g.filter (freshRow ex)) =
      List.map keyG (g.filter (freshRow ex)) :=
    List.map_congr_left (fun r _ => keyB_stripRow r)
  rw [h1, h2]

theorem overwriteBy_hit_unique {g : List TrainingRow} (hgd : (g.map keyG).Nodup)
    {r : TrainingRow} (hr : r ∈ g) {b : BaseRow} (hk : keyG r = keyB b) :
    overwriteBy g b = { b with label := r.label, next_action := r.next_action } := by
  unfold overwriteBy
  cases hf : g.find? (fun r' => keyG r' == keyB b) with
  | none =>
    exfalso
    have := List.find?_eq_none.1 hf r hr
    simp [hk] at this
  | some r' =>
    have hr'm : r' ∈ g := List.mem_of_find?_eq_some hf
    have hp := List.find?_some hf
    have hr'k : keyG r' = keyB b := by simpa using hp
    have heq : r' = r := List.inj_on_of_nodup_map hgd hr'm hr (hr'k.trans hk.symm)
    rw [heq]

/-- Non-emptiness of keys carries over to the written dataset. -/
theorem mergedCF_keys_ne (ex : List BaseRow) (g : List TrainingRow)
    (hbn : ∀ b ∈ ex, keyB b ≠ "") (hgn : ∀ r ∈ g, keyG r ≠ "") :
    ∀ b ∈ mergedCF ex g, keyB b ≠ "" := by
  intro b hb
  have hmem : keyB b ∈ (mergedCF ex g).map keyB := List.mem_map_of_mem keyB hb
  rw [mergedCF_keys] at hmem
  rcases List.mem_append.1 hmem with h | h
  · obtain ⟨b0, hb0, he⟩ := List.mem_map.1 h
    rw [← he]
    exact hbn b0 hb0
  · obtain ⟨r0, hr0, he⟩ := List.mem_map.1 h
    rw [← he]
    exact hgn r0 (List.mem_of_mem_filter hr0)

/-- Distinctness of keys carries over to the written dataset. -/
theorem mergedCF_keys_nodup (ex : List BaseRow) (g : List TrainingRow)
    (hbd : (ex.map keyB).Nodup) (hgd : (g.map keyG).Nodup) :
    ((mergedCF ex g).map keyB).Nodup := by
  rw [mergedCF_keys, List.nodup_append]
  refine ⟨hbd, ?_, ?_⟩
  · have hsub : ((g.filter (freshRow ex)).map keyG).Sublist (g.map keyG) :=
      (List.filter_sublist g).map keyG
    exact List.Nodup.sublist hsub hgd
  · intro a ha hb
    obtain ⟨b0, hb0, he⟩ := List.mem_map.1 ha
    obtain ⟨r0, hr0, he'⟩ := List.mem_map.1 hb
    have hfr : freshRow ex r0 = true := (List.mem_filter.1 hr0).2
    have hall : ∀ x ∈ ex, ¬ keyB x = keyG r0 := by simpa [freshRow] using hfr
    exact hall b0 hb0 (he.trans he'.symm)

/-- Every generated key appears in the written dataset, carrying exactly the
generated row's `label` and `next_action` (under distinct generated keys). -/
theorem mergedCF_covers (ex : List BaseRow) (g : List TrainingRow)
    (hgd : (g.map keyG).Nodup) :
    ∀ r ∈ g, ∃ b ∈ mergedCF ex g,
      keyB b = keyG r ∧ b.label = r.label ∧ b.next_action = r.next_action := by
  intro r hr
  by_cases hfr : freshRow ex r = true
  · refine ⟨stripRow r, ?_, keyB_stripRow r, rfl, rfl⟩
    unfold mergedCF
    exact List.mem_append_right _ (List.mem_map_of_mem stripRow (List.mem_filter.2 ⟨hr, hfr⟩))
  · have hex : ∃ b0 ∈ ex, keyB b0 = keyG r := by
      by_contra hno
      push_neg at hno
      exact hfr (freshRow_eq_true hno)
    obtain ⟨b0, hb0, hkb0⟩ := hex
    have hob : overwriteBy g b0 = { b0 with label := r.label, next_action := r.next_action } :=
      overwriteBy_hit_unique hgd hr hkb0.symm
    refine ⟨overwriteBy g b0, ?_, ?_, ?_, ?_⟩
    · unfold mergedCF
      exact List.mem_append_left _ (List.mem_map_of_mem (overwriteBy g) hb0)
    · rw [keyB_overwriteBy]
      exact hkb0
    · rw [hob]
    · rw [hob]

/-- Running the merge a second time with the same generated rows adds and
updates nothing (under non-empty, pairwise-distinct keys on both sides). -/
theorem merge_twice_zero (ex : List BaseRow) (g : List TrainingRow)
    (hbn : ∀ b ∈ ex, keyB b ≠ "") (hbd : (ex.map keyB).Nodup)
    (hgn : ∀ r ∈ g, keyG r ≠ "") (hgd : (g.map keyG).Nodup) :
    (merge_into_base (merge_into_base ex g).1 g).2.1 = 0 ∧
    (merge_into_base (merge_into_base ex g).1 g).2.2 = 0 := by
  have e1 := merge_into_base_closed ex g hbn hbd hgd
  have hm1 : (merge_into_base ex g).1 = mergedCF ex g := by rw [e1]
  have hbn' := mergedCF_keys_ne ex g hbn hgn
  have hbd' := mergedCF_keys_nodup ex g hbd hgd
  have e2 := merge_into_base_closed (mergedCF ex g) g hbn' hbd' hgd
  rw [hm1, e2]
  have hcover := mergedCF_covers ex g hgd
  constructor
  · show (g.filter (freshRow (mergedCF ex g))).length = 0
    rw [List.length_eq_zero, List.filter_eq_nil_iff]
    intro r hr hfr
    obtain ⟨b, hb, hkb, _, _⟩ := hcover r hr
    have hall : ∀ x ∈ mergedCF ex g, ¬ keyB x = keyG r := by simpa [freshRow] using hfr
    exact hall b hb hkb
  · show (g.filter (updHit (mergedCF ex g))).length = 0
    rw [List.length_eq_zero, List.filter_eq_nil_iff]
    intro r hr hupd
    obtain ⟨b, hb, hkb, hlbl, hact⟩ := hcover r hr
    obtain ⟨b', hb', hk', hdiff⟩ :
        ∃ b' ∈ mergedCF ex g, keyB b' = keyG r ∧
          (¬ b'.label = r.label ∨ ¬ b'.next_action = r.next_action) := by
      simpa [updHit] using hupd
    have hbb : b' = b := List.inj_on_of_nodup_map hbd' hb' hb (hk'.trans hkb.symm)
    subst hbb
    rcases hdiff with h | h
    · exact h hlbl
    · exact h hact

theorem set_getElem?_self {α : Type} : ∀ (l : List α) (i : Nat) (a : α),
    l[i]? = some a → l.set i a = l := by
  intro l
  induction l with
  | nil => intro i a h; simp at h
  | cons x xs ih =>
    intro i a h
    match i with
    | 0 =>
      simp only [List.getElem?_cons_zero, Option.some.injEq] at h
      rw [List.set_cons_zero, ← h]
    | i + 1 =>
      simp only [List.getElem?_cons_succ] at h
      rw [List.set_cons_succ, ih i a h]

/-- The merge loop preserves pairwise distinctness of the normalized prompt
keys of the dataset, for arbitrary generated rows, provided every dataset row
with a key is reachable through the index and the index is sound. -/
theorem merge_foldl_nodup :
    ∀ (gen : List TrainingRow) (st : MergeState),
    ((st.merged.map keyB).Nodup) →
    (∀ b ∈ st.merged, lookupKey st.index (keyB b) ≠ none) →
    IdxSound st →
    (((List.foldl mergeStep st gen).merged).map keyB).Nodup := by
  intro gen
  induction gen with
  | nil =>
    intro st hN _ _
    rw [List.foldl_nil]
    exact hN
  | cons r gen ih =>
    intro st hN hP hS
    rw [List.foldl_cons]
    cases hlk : lookupKey st.index (keyG r) with
    | some idx =>
      rw [mergeStep_update hlk]
      obtain ⟨b, hb, hkb⟩ := hS (keyG r) idx hlk
      have hgetD : st.merged.getD idx dummyRow = b := by
        rw [List.getD_eq_getElem?_getD, hb]
        rfl
      have hbmem : b ∈ st.merged := List.mem_iff_getElem?.2 ⟨idx, hb⟩
      apply ih
      · show ((st.merged.set idx _).map keyB).Nodup
        rw [hgetD, List.map_set]
        have hkX : keyB { b with label := r.label, next_action := r.next_action } = keyB b := rfl
        rw [hkX]
        have hsame : (st.merged.map keyB)[idx]? = some (keyB b) := by
          rw [List.getElem?_map, hb]
          rfl
        rw [set_getElem?_self _ _ _ hsame]
        exact hN
      · intro b' hb'
        show lookupKey st.index (keyB b') ≠ none
        rcases List.mem_or_eq_of_mem_set hb' with h | h
        · exact hP b' h
        · rw [h, hgetD]
          have : keyB { b with label := r.label, next_action := r.next_action } = keyB b := rfl
          rw [this]
          exact hP b hbmem
      · intro k i hki
        obtain ⟨b2, hb2, hkb2⟩ := hS k i hki
        show ∃ b3, (st.merged.set idx _)[i]? = some b3 ∧ keyB b3 = k
        rw [hgetD]
        by_cases hi : idx = i
        · subst hi
          have hlt : idx < st.merged.length := by
            rcases List.getElem?_eq_some.1 hb with ⟨h, _⟩
            exact h
          refine ⟨{ b with label := r.label, next_action := r.next_action },
            by rw [List.getElem?_set, if_pos rfl, if_pos hlt], ?_⟩
          have hb2b : b2 = b := by
            rw [hb] at hb2
            exact (Option.some.injEq _ _ ▸ hb2).symm
          show keyB b = k
          rw [← hkb2, hb2b]
        · rw [List.getElem?_set, if_neg hi]
          exact ⟨b2, hb2, hkb2⟩
    | none =>
      rw [mergeStep_append hlk]
      apply ih
      · show (((st.merged ++ [stripRow r]).map keyB)).Nodup
        rw [List.map_append, List.nodup_append]
        refine ⟨hN, by simp, ?_⟩
        intro a ha hmem
        have hmem' : a = keyB (stripRow r) := by simpa using hmem
        obtain ⟨b0, hb0, he⟩ := List.mem_map.1 ha
        apply hP b0 hb0
        rw [he, hmem', keyB_stripRow]
        exact hlk
      · intro b' hb'
        show lookupKey ((keyG r, st.merged.length) :: st.index) (keyB b') ≠ none
        unfold lookupKey
        by_cases hkb' : keyB b' = keyG r
        · rw [if_pos hkb']
          simp
        · rw [if_neg hkb']
          rcases List.mem_append.1 hb' with h | h
          · exact hP b' h
          · have : b' = stripRow r := by simpa using h
            rw [this, keyB_stripRow] at hkb'
            exact absurd rfl hkb'
      · intro k i hki
        show ∃ b3, (st.merged ++ [stripRow r])[i]? = some b3 ∧ keyB b3 = k
        unfold lookupKey at hki
        by_cases hk : k = keyG r
        · rw [if_pos hk] at hki
          injection hki with hi
          refine ⟨stripRow r, ?_, by rw [keyB_stripRow, hk]⟩
          rw [← hi]
          exact List.getElem?_concat_length _ _
        · rw [if_neg hk] at hki
          obtain ⟨b2, hb2, hkb2⟩ := hS k i hki
          have hilt : i < st.merged.length := by
            rcases List.getElem?_eq_some.1 hb2 with ⟨h, _⟩
            exact h
          refine ⟨b2, ?_, hkb2⟩
          rw [List.getElem?_append, if_pos hilt]
          exact hb2

/-- The written dataset has pairwise-distinct normalized prompts whenever
the loaded base rows had non-empty pairwise-distinct normalized prompts
(no condition on the generated rows). -/
theorem merge_into_base_nodup (ex : List BaseRow) (g : List TrainingRow)
    (hbn : ∀ b ∈ ex, keyB b ≠ "") (hbd : (ex.map keyB).Nodup) :
    (((merge_into_base ex g).1).map keyB).Nodup := by
  show (((List.foldl mergeStep
    { merged := ex, index := prompt_to_index ex, added := 0, updated := 0 } g).merged).map
      keyB).Nodup
  apply merge_foldl_nodup
  · exact hbd
  · intro b hb
    obtain ⟨i, hi⟩ := List.mem_iff_getElem?.1 hb
    have h := buildIdxFrom_complete ex 0 hbn hbd (keyB b) i b hi rfl
    rw [Nat.zero_add] at h
    show lookupKey (buildIdxFrom ex 0) (keyB b) ≠ none
    rw [h]
    simp
  · intro k i hki
    exact (prompt_to_index_exact ex hbn hbd k i).1 hki

/-- The relative update count contributed by the same-key rows `restk` still
to be processed, given the same-key rows `sub` already processed (the first
row of a key is an addition and never counts). -/
def chainRel (sub restk : List TrainingRow) : Nat :=
  match sub with
  | [] =>
    match restk with
    | [] => 0
    | r :: rs => chainUpdates r.label r.next_action rs
  | s :: ss =>
    chainUpdates (chainState (s.label, s.next_action) ss).1
      (chainState (s.label, s.next_action) ss).2 restk

theorem chainRel_nil (sub : List TrainingRow) : chainRel sub [] = 0 := by
  cases sub <;> rfl

theorem chainRel_cons (s : TrainingRow) (ss F : List TrainingRow) (r : TrainingRow) :
    chainRel (s :: ss) (r :: F) =
      (if (chainState (s.label, s.next_action) ss).1 ≠ r.label ∨
          (chainState (s.label, s.next_action) ss).2 ≠ r.next_action then 1 else 0) +
        chainRel (s :: (ss ++ [r])) F := by
  have hL : chainRel (s :: ss) (r :: F) =
      if (chainState (s.label, s.next_action) ss).1 ≠ r.label ∨
          (chainState (s.label, s.next_action) ss).2 ≠ r.next_action
      then 1 + chainUpdates r.label r.next_action F
      else chainUpdates (chainState (s.label, s.next_action) ss).1
        (chainState (s.label, s.next_action) ss).2 F := rfl
  have hR : chainRel (s :: (ss ++ [r])) F = chainUpdates r.label r.next_action F := by
    show chainUpdates (chainState (s.label, s.next_action) (ss ++ [r])).1
      (chainState (s.label, s.next_action) (ss ++ [r])).2 F = _
    rw [chainState_append]
    rfl
  rw [hL, hR]
  by_cases hc : (chainState (s.label, s.next_action) ss).1 ≠ r.label ∨
      (chainState (s.label, s.next_action) ss).2 ≠ r.next_action
  · rw [if_pos hc, if_pos hc]
  · rw [if_neg hc, if_neg hc]
    rw [not_or] at hc
    obtain ⟨h1, h2⟩ := hc
    rw [not_ne_iff] at h1 h2
    rw [h1, h2]
    omega

/-- One merge step preserves soundness of the index. -/
theorem idxSound_step {st : MergeState} (r : TrainingRow) (hS : IdxSound st) :
    IdxSound (mergeStep st r) := by
  cases hlk : lookupKey st.index (keyG r) with
  | some idx =>
    rw [mergeStep_update hlk]
    obtain ⟨b, hb, hkb⟩ := hS (keyG r) idx hlk
    have hgetD : st.merged.getD idx dummyRow = b := by
      rw [List.getD_eq_getElem?_getD, hb]
      rfl
    intro k i hki
    have hki' : lookupKey st.index k = some i := hki
    obtain ⟨b2, hb2, hkb2⟩ := hS k i hki'
    show ∃ b3, (st.merged.set idx _)[i]? = some b3 ∧ keyB b3 = k
    rw [hgetD]
    by_cases hi : idx = i
    · subst hi
      have hlt : idx < st.merged.length := by
        rcases List.getElem?_eq_some.1 hb with ⟨h, _⟩
        exact h
      refine ⟨{ b with label := r.label, next_action := r.next_action },
        by rw [List.getElem?_set, if_pos rfl, if_pos hlt], ?_⟩
      have hb2b : b2 = b := by
        rw [hb] at hb2
        exact (Option.some.injEq _ _ ▸ hb2).symm
      show keyB b = k
      rw [← hkb2, hb2b]
    · rw [List.getElem?_set, if_neg hi]
      exact ⟨b2, hb2, hkb2⟩
  | none =>
    rw [mergeStep_append hlk]
    intro k i hki
    have hki' : lookupKey ((keyG r, st.merged.length) :: st.index) k = some i := hki
    show ∃ b3, (st.merged ++ [stripRow r])[i]? = some b3 ∧ keyB b3 = k
    unfold lookupKey at hki'
    by_cases hk : k = keyG r
    · rw [if_pos hk] at hki'
      injection hki' with hi
      refine ⟨stripRow r, ?_, by rw [keyB_stripRow, hk]⟩
      rw [← hi]
      exact List.getElem?_concat_length _ _
    · rw [if_neg hk] at hki'
      obtain ⟨b2, hb2, hkb2⟩ := hS k i hki'
      have hilt : i < st.merged.length := by
        rcases List.getElem?_eq_some.1 hb2 with ⟨h, _⟩
        exact h
      refine ⟨b2, ?_, hkb2⟩
      rw [List.getElem?_append, if_pos hilt]
      exact hb2

/-- Behaviour of the merge on one fixed normalized prompt key `k`: either no
row with key `k` has been seen (and none is indexed), or exactly one merged
row carries key `k` — prompt from the first same-key generated row,
`label`/`next_action` from the chain of same-key rows — and the index points
at it. -/
def KeyInv (k : String) (st : MergeState) : List TrainingRow → Prop
  | [] =>
    (∀ (i : Nat) (b : BaseRow), st.merged[i]? = some b → keyB b ≠ k) ∧
      lookupKey st.index k = none
  | s :: ss => ∃ pos, lookupKey st.index k = some pos ∧
      st.merged[pos]? = some ⟨s.prompt, (chainState (s.label, s.next_action) ss).1,
        (chainState (s.label, s.next_action) ss).2⟩ ∧
      ∀ (i : Nat) (b : BaseRow), st.merged[i]? = some b → keyB b = k → i = pos

/-- Per-key behaviour of the merge loop: processing `rest` extends the
same-key chain `sub`, keeps the index sound, and adds at least (exactly, when
every remaining row has the key) the chain's update count. -/
theorem merge_foldl_key (k : String) :
    ∀ (rest : List TrainingRow) (st : MergeState) (sub : List TrainingRow),
    IdxSound st →
    (∀ r ∈ sub, keyG r = k) →
    KeyInv k st sub →
    KeyInv k (List.foldl mergeStep st rest)
      (sub ++ rest.filter (fun r => keyG r == k)) ∧
    IdxSound (List.foldl mergeStep st rest) ∧
    st.updated + chainRel sub (rest.filter (fun r => keyG r == k)) ≤
      (List.foldl mergeStep st rest).updated ∧
    ((∀ r ∈ rest, keyG r = k) →
      (List.foldl mergeStep st rest).updated =
        st.updated + chainRel sub (rest.filter (fun r => keyG r == k))) := by
  intro rest
  induction rest with
  | nil =>
    intro st sub hS hsubk hKI
    rw [List.foldl_nil, List.filter_nil, List.append_nil, chainRel_nil]
    exact ⟨hKI, hS, by omega, fun _ => by omega⟩
  | cons r rest ih =>
    intro st sub hS hsubk hKI
    rw [List.foldl_cons]
    by_cases hrk : keyG r = k
    · have hfc : (r :: rest).filter (fun r' => keyG r' == k) =
          r :: rest.filter (fun r' => keyG r' == k) := by
        rw [List.filter_cons, if_pos (by simp [hrk])]
      rw [hfc]
      cases sub with
      | nil =>
        obtain ⟨hnok, hlknone⟩ := hKI
        have hlk : lookupKey st.index (keyG r) = none := by rw [hrk]; exact hlknone
        have hS' := idxSound_step r hS
        have hupd' : (mergeStep st r).updated = st.updated := by
          rw [mergeStep_append hlk]
        have hKI' : KeyInv k (mergeStep st r) [r] := by
          rw [mergeStep_append hlk]
          refine ⟨st.merged.length, ?_, ?_, ?_⟩
          · show lookupKey ((keyG r, st.merged.length) :: st.index) k = some st.merged.length
            unfold lookupKey
            rw [if_pos hrk.symm]
          · show (st.merged ++ [stripRow r])[st.merged.length]? =
              some ⟨r.prompt, (chainState (r.label, r.next_action) []).1,
                (chainState (r.label, r.next_action) []).2⟩
            exact List.getElem?_concat_length _ _
          · intro i b hib hkb
            have hib' : (st.merged ++ [stripRow r])[i]? = some b := hib
            rw [List.getElem?_append] at hib'
            by_cases hilt : i < st.merged.length
            · rw [if_pos hilt] at hib'
              exact absurd hkb (hnok i b hib')
            · rw [if_neg hilt] at hib'
              rcases Nat.exists_eq_add_of_le (Nat.le_of_not_lt hilt) with ⟨d, hd⟩
              cases d with
              | zero => omega
              | succ m =>
                exfalso
                rw [hd, show st.merged.length + (m + 1) - st.merged.length = m + 1 by omega]
                  at hib'
                simp at hib'
        have hsubk' : ∀ x ∈ [r], keyG x = k := by
          intro x hx
          have : x = r := by simpa using hx
          rw [this]
          exact hrk
        obtain ⟨ihKI, ihS, ihle, iheq⟩ := ih (mergeStep st r) [r] hS' hsubk' hKI'
        refine ⟨?_, ihS, ?_, ?_⟩
        · simpa using ihKI
        · have hcr : chainRel [] (r :: rest.filter (fun r' => keyG r' == k)) =
              chainRel [r] (rest.filter (fun r' => keyG r' == k)) := rfl
          rw [hcr, ← hupd']
          exact ihle
        · intro hall
          have heq := iheq (fun x hx => hall x (List.mem_cons_of_mem r hx))
          have hcr : chainRel [] (r :: rest.filter (fun r' => keyG r' == k)) =
              chainRel [r] (rest.filter (fun r' => keyG r' == k)) := rfl
          rw [hcr, ← hupd']
          exact heq
      | cons s ss =>
        obtain ⟨pos, hlkpos, hstored, huniq⟩ := hKI
        have hlk : lookupKey st.index (keyG r) = some pos := by rw [hrk]; exact hlkpos
        have hS' := idxSound_step r hS
        have hgetD : st.merged.getD pos dummyRow =
            ⟨s.prompt, (chainState (s.label, s.next_action) ss).1,
              (chainState (s.label, s.next_action) ss).2⟩ := by
          rw [List.getD_eq_getElem?_getD, hstored]
          rfl
        have hposlt : pos < st.merged.length := by
          rcases List.getElem?_eq_some.1 hstored with ⟨h, _⟩
          exact h
        have hupd' : (mergeStep st r).updated =
            if (chainState (s.label, s.next_action) ss).1 ≠ r.label ∨
                (chainState (s.label, s.next_action) ss).2 ≠ r.next_action
            then st.updated + 1 else st.updated := by
          rw [mergeStep_update hlk, hgetD]
          simp only [Bool.or_eq_true, bne_iff_ne]
        have hKI' : KeyInv k (mergeStep st r) (s :: (ss ++ [r])) := by
          rw [mergeStep_update hlk, hgetD]
          refine ⟨pos, hlkpos, ?_, ?_⟩
          · show (st.merged.set pos _)[pos]? =
              some ⟨s.prompt, (chainState (s.label, s.next_action) (ss ++ [r])).1,
                (chainState (s.label, s.next_action) (ss ++ [r])).2⟩
            rw [List.getElem?_set, if_pos rfl, if_pos hposlt, chainState_append]
            rfl
          · intro i b hib hkb
            by_cases hi : pos = i
            · exact hi.symm
            · have hib2 : (st.merged.set pos _)[i]? = some b := hib
              rw [List.getElem?_set, if_neg hi] at hib2
              exact huniq i b hib2 hkb
        have hsubk' : ∀ x ∈ s :: (ss ++ [r]), keyG x = k := by
          intro x hx
          rcases List.mem_cons.1 hx with h | h
          · rw [h]
            exact hsubk s (List.mem_cons_self _ _)
          · rcases List.mem_append.1 h with h2 | h2
            · exact hsubk x (List.mem_cons_of_mem s h2)
            · have : x = r := by simpa using h2
              rw [this]
              exact hrk
        obtain ⟨ihKI, ihS, ihle, iheq⟩ := ih (mergeStep st r) (s :: (ss ++ [r])) hS' hsubk' hKI'
        have harith : st.updated +
            ((if (chainState (s.label, s.next_action) ss).1 ≠ r.label ∨
                (chainState (s.label, s.next_action) ss).2 ≠ r.next_action then 1 else 0) +
              chainRel (s :: (ss ++ [r])) (rest.filter (fun r' => keyG r' == k))) =
            (mergeStep st r).updated +
              chainRel (s :: (ss ++ [r])) (rest.filter (fun r' => keyG r' == k)) := by
          rw [hupd']
          by_cases hc : (chainState (s.label, s.next_action) ss).1 ≠ r.label ∨
              (chainState (s.label, s.next_action) ss).2 ≠ r.next_action
          · rw [if_pos hc, if_pos hc]
            omega
          · rw [if_neg hc, if_neg hc]
            omega
        refine ⟨?_, ihS, ?_, ?_⟩
        · have hl : (s :: ss) ++ r :: rest.filter (fun r' => keyG r' == k) =
              (s :: (ss ++ [r])) ++ rest.filter (fun r' => keyG r' == k) := by
            simp
          rw [hl]
          exact ihKI
        · rw [chainRel_cons, ← Nat.add_assoc]
          calc st.updated +
              (if (chainState (s.label, s.next_action) ss).1 ≠ r.label ∨
                  (chainState (s.label, s.next_action) ss).2 ≠ r.next_action then 1 else 0) +
                chainRel (s :: (ss ++ [r])) (rest.filter (fun r' => keyG r' == k)) =
              (mergeStep st r).updated +
                chainRel (s :: (ss ++ [r])) (rest.filter (fun r' => keyG r' == k)) := by
                rw [Nat.add_assoc]
                exact harith
            _ ≤ _ := ihle
        · intro hall
          rw [chainRel_cons, ← Nat.add_assoc, Nat.add_assoc, harith]
          exact iheq (fun x hx => hall x (List.mem_cons_of_mem r hx))
    · have hfc : (r :: rest).filter (fun r' => keyG r' == k) =
          rest.filter (fun r' => keyG r' == k) := by
        rw [List.filter_cons, if_neg (by simp [hrk])]
      rw [hfc]
      have hS' := idxSound_step r hS
      have hupdge : st.updated ≤ (mergeStep st r).updated := by
        cases hlkr : lookupKey st.index (keyG r) with
        | some idx =>
          rw [mergeStep_update hlkr]
          have hgen : ∀ (c : Prop) (h : Decidable c),
              st.updated ≤ @ite _ c h (st.updated + 1) st.updated := by
            intro c h
            split <;> omega
          exact hgen _ _
        | none =>
          rw [mergeStep_append hlkr]
      have hKI' : KeyInv k (mergeStep st r) sub := by
        cases hlkr : lookupKey st.index (keyG r) with
        | some idx =>
          obtain ⟨b, hb, hkb⟩ := hS (keyG r) idx hlkr
          have hgetD : st.merged.getD idx dummyRow = b := by
            rw [List.getD_eq_getElem?_getD, hb]
            rfl
          rw [mergeStep_update hlkr, hgetD]
          cases sub with
          | nil =>
            obtain ⟨hnok, hlknone⟩ := hKI
            refine ⟨?_, hlknone⟩
            intro i b' hib'
            have hib2 : (st.merged.set idx
              { b with label := r.label, next_action := r.next_action })[i]? = some b' := hib'
            rw [List.getElem?_set] at hib2
            by_cases hi : idx = i
            · rw [if_pos hi] at hib2
              by_cases hlt : idx < st.merged.length
              · rw [if_pos hlt] at hib2
                injection hib2 with hX
                intro hkb'
                apply hrk
                rw [← hX] at hkb'
                rw [← hkb]
                exact hkb'
              · rw [if_neg hlt] at hib2
                simp at hib2
            · rw [if_neg hi] at hib2
              exact hnok i b' hib2
          | cons s ss =>
            obtain ⟨pos, hlkpos, hstored, huniq⟩ := hKI
            have hks : keyG s = k := hsubk s (List.mem_cons_self _ _)
            have hidxpos : idx ≠ pos := by
              intro he
              rw [he] at hb
              rw [hstored] at hb
              injection hb with hXb
              apply hrk
              rw [← hkb, ← hXb]
              exact hks
            refine ⟨pos, hlkpos, ?_, ?_⟩
            · show (st.merged.set idx _)[pos]? = some _
              rw [List.getElem?_set, if_neg hidxpos]
              exact hstored
            · intro i b' hib' hkb'
              have hib2 : (st.merged.set idx
                { b with label := r.label, next_action := r.next_action })[i]? = some b' := hib'
              rw [List.getElem?_set] at hib2
              by_cases hi : idx = i
              · rw [if_pos hi] at hib2
                by_cases hlt : idx < st.merged.length
                · rw [if_pos hlt] at hib2
                  injection hib2 with hX
                  exfalso
                  apply hrk
                  rw [← hX] at hkb'
                  rw [← hkb]
                  exact hkb'
                · rw [if_neg hlt] at hib2
                  simp at hib2
              · rw [if_neg hi] at hib2
                exact huniq i b' hib2 hkb'
        | none =>
          rw [mergeStep_append hlkr]
          cases sub with
          | nil =>
            obtain ⟨hnok, hlknone⟩ := hKI
            refine ⟨?_, ?_⟩
            · intro i b' hib'
              have hib2 : (st.merged ++ [stripRow r])[i]? = some b' := hib'
              rw [List.getElem?_append] at hib2
              by_cases hilt : i < st.merged.length
              · rw [if_pos hilt] at hib2
                exact hnok i b' hib2
              · rw [if_neg hilt] at hib2
                rcases Nat.exists_eq_add_of_le (Nat.le_of_not_lt hilt) with ⟨d, hd⟩
                cases d with
                | zero =>
                  rw [hd, show st.merged.length + 0 - st.merged.length = 0 by omega] at hib2
                  simp only [List.getElem?_cons_zero, Option.some.injEq] at hib2
                  rw [← hib2, keyB_stripRow]
                  exact hrk
                | succ m =>
                  exfalso
                  rw [hd, show st.merged.length + (m + 1) - st.merged.length = m + 1 by omega]
                    at hib2
                  simp at hib2
            · show lookupKey ((keyG r, st.merged.length) :: st.index) k = none
              unfold lookupKey
              rw [if_neg (fun he => hrk he.symm)]
              exact hlknone
          | cons s ss =>
            obtain ⟨pos, hlkpos, hstored, huniq⟩ := hKI
            have hposlt : pos < st.merged.length := by
              rcases List.getElem?_eq_some.1 hstored with ⟨h, _⟩
              exact h
            refine ⟨pos, ?_, ?_, ?_⟩
            · show lookupKey ((keyG r, st.merged.length) :: st.index) k = some pos
              unfold lookupKey
              rw [if_neg (fun he => hrk he.symm)]
              exact hlkpos
            · show (st.merged ++ [stripRow r])[pos]? = some _
              rw [List.getElem?_append, if_pos hposlt]
              exact hstored
            · intro i b' hib' hkb'
              have hib2 : (st.merged ++ [stripRow r])[i]? = some b' := hib'
              rw [List.getElem?_append] at hib2
              by_cases hilt : i < st.merged.length
              · rw [if_pos hilt] at hib2
                exact huniq i b' hib2 hkb'
              · rw [if_neg hilt] at hib2
                rcases Nat.exists_eq_add_of_le (Nat.le_of_not_lt hilt) with ⟨d, hd⟩
                cases d with
                | zero =>
                  exfalso
                  rw [hd, show st.merged.length + 0 - st.merged.length = 0 by omega] at hib2
                  simp only [List.getElem?_cons_zero, Option.some.injEq] at hib2
                  apply hrk
                  rw [← keyB_stripRow r, hib2]
                  exact hkb'
                | succ m =>
                  exfalso
                  rw [hd, show st.merged.length + (m + 1) - st.merged.length = m + 1 by omega]
                    at hib2
                  simp at hib2
      obtain ⟨ihKI, ihS, ihle, iheq⟩ := ih (mergeStep st r) sub hS' hsubk hKI'
      refine ⟨ihKI, ihS, ?_, ?_⟩
      · omega
      · intro hall
        exact absurd (hall r (List.mem_cons_self _ _)) hrk

/-- For a key `k` absent from the base dataset, generated rows with key `k`
produce exactly one written row — prompt from the first such row,
`label`/`next_action` from the chain — and the chain's update count is a
lower bound on `updated` (exact when every generated row has key `k`). -/
theorem merge_into_base_key (ex : List BaseRow) (g : List TrainingRow) (k : String)
    (hk : ∀ b ∈ ex, keyB b ≠ k) (s : TrainingRow) (ss : List TrainingRow)
    (hsub : g.filter (fun r => keyG r == k) = s :: ss) :
    (merge_into_base ex g).1.filter (fun b => keyB b == k) =
      [⟨s.prompt, (chainState (s.label, s.next_action) ss).1,
        (chainState (s.label, s.next_action) ss).2⟩] ∧
    chainUpdates s.label s.next_action ss ≤ (merge_into_base ex g).2.2 ∧
    ((∀ r ∈ g, keyG r = k) →
      (merge_into_base ex g).2.2 = chainUpdates s.label s.next_action ss) := by
  have hS0 : IdxSound
      { merged := ex, index := prompt_to_index ex, added := 0, updated := 0 } := by
    intro k' i hki
    obtain ⟨j, b, hj, hkb, hi⟩ := buildIdxFrom_sound ex 0 k' i hki
    exact ⟨b, by rw [hi, Nat.zero_add]; exact hj, hkb⟩
  have hKI0 : KeyInv k
      { merged := ex, index := prompt_to_index ex, added := 0, updated := 0 } [] := by
    refine ⟨?_, ?_⟩
    · intro i b hib
      exact hk b (List.mem_iff_getElem?.2 ⟨i, hib⟩)
    · show lookupKey (buildIdxFrom ex 0) k = none
      cases hc : lookupKey (buildIdxFrom ex 0) k with
      | none => rfl
      | some i =>
        obtain ⟨j, b, hj, hkb, _⟩ := buildIdxFrom_sound ex 0 k i hc
        exact absurd hkb (hk b (List.mem_iff_getElem?.2 ⟨j, hj⟩))
  obtain ⟨hKI, hS, hle, heq⟩ := merge_foldl_key k g
    { merged := ex, index := prompt_to_index ex, added := 0, updated := 0 } []
    hS0 (by intro x hx; simp at hx) hKI0
  rw [List.nil_append, hsub] at hKI
  obtain ⟨pos, hlkpos, hstored, huniq⟩ := hKI
  have hks : keyG s = k := by
    have hmem : s ∈ g.filter (fun r => keyG r == k) := by
      rw [hsub]
      exact List.mem_cons_self _ _
    exact beq_iff_eq.1 (List.mem_filter.1 hmem).2
  have hcr : chainRel [] (g.filter (fun r => keyG r == k)) =
      chainUpdates s.label s.next_action ss := by
    rw [hsub]
    rfl
  refine ⟨?_, ?_, ?_⟩
  · show (List.foldl mergeStep _ g).merged.filter (fun b => keyB b == k) = _
    apply filter_singleton_of_unique _ _ pos
    · exact hstored
    · show (keyB ⟨s.prompt, (chainState (s.label, s.next_action) ss).1,
        (chainState (s.label, s.next_action) ss).2⟩ == k) = true
      rw [beq_iff_eq]
      show normKey s.prompt = k
      exact hks
    · intro i b hib hq
      exact huniq i b hib (beq_iff_eq.1 hq)
  · show chainUpdates s.label s.next_action ss ≤ (List.foldl mergeStep _ g).updated
    calc chainUpdates s.label s.next_action ss
        = 0 + chainRel [] (g.filter (fun r => keyG r == k)) := by rw [hcr]; omega
      _ ≤ _ := hle
  · intro hall
    show (List.foldl mergeStep _ g).updated = _
    rw [heq hall]
    show 0 + chainRel [] (g.filter (fun r => keyG r == k)) = _
    rw [hcr, Nat.zero_add]

/-! ## Order and deduplication lemmas (loader back end) -/

theorem lexLe_total : ∀ (a b : List Char), lexLe a b = true ∨ lexLe b a = true := by
  intro a
  induction a with
  | nil => intro b; left; rfl
  | cons x xs ih =>
    intro b
    cases b with
    | nil => right; rfl
    | cons y ys =>
      by_cases hxy : x.toNat < y.toNat
      · left
        unfold lexLe
        rw [if_pos hxy]
      · by_cases hyx : y.toNat < x.toNat
        · right
          unfold lexLe
          rw [if_pos hyx]
        · rcases ih ys with h | h
          · left
            unfold lexLe
            rw [if_neg hxy, if_neg hyx]
            exact h
          · right
            unfold lexLe
            rw [if_neg hyx, if_neg hxy]
            exact h

theorem lexLe_trans : ∀ (a b c : List Char),
    lexLe a b = true → lexLe b c = true → lexLe a c = true := by
  intro a
  induction a with
  | nil => intro b c _ _; rfl
  | cons x xs ih =>
    intro b c hab hbc
    cases b with
    | nil => simp [lexLe] at hab
    | cons y ys =>
      cases c with
      | nil => simp [lexLe] at hbc
      | cons z zs =>
        unfold lexLe at hab hbc ⊢
        by_cases hxy : x.toNat < y.toNat
        · by_cases hyz : y.toNat < z.toNat
          · rw [if_pos (by omega : x.toNat < z.toNat)]
          · by_cases hzy : z.toNat < y.toNat
            · rw [if_neg hyz, if_pos hzy] at hbc
              simp at hbc
            · rw [if_pos (by omega : x.toNat < z.toNat)]
        · by_cases hyx : y.toNat < x.toNat
          · rw [if_neg hxy, if_pos hyx] at hab
            simp at hab
          · rw [if_neg hxy, if_neg hyx] at hab
            by_cases hyz : y.toNat < z.toNat
            · rw [if_pos (by omega : x.toNat < z.toNat)]
            · by_cases hzy : z.toNat < y.toNat
              · rw [if_neg hyz, if_pos hzy] at hbc
                simp at hbc
              · rw [if_neg hyz, if_neg hzy] at hbc
                rw [if_neg (by omega : ¬ x.toNat < z.toNat),
                  if_neg (by omega : ¬ z.toNat < x.toNat)]
                exact ih ys zs hab hbc

instance : IsTotal Paper paperLE := by
  constructor
  intro a b
  unfold paperLE
  by_cases h1 : b.year < a.year
  · exact Or.inl (Or.inl h1)
  by_cases h2 : a.year < b.year
  · exact Or.inr (Or.inl h2)
  have hyy : a.year = b.year := by omega
  rcases lexLe_total a.title.data b.title.data with h | h
  · exact Or.inl (Or.inr ⟨hyy, h⟩)
  · exact Or.inr (Or.inr ⟨hyy.symm, h⟩)

instance : IsTrans Paper paperLE := by
  constructor
  intro a b c hab hbc
  unfold paperLE at *
  rcases hab with h1 | ⟨h1, h1'⟩ <;> rcases hbc with h2 | ⟨h2, h2'⟩
  · exact Or.inl (by omega)
  · exact Or.inl (by omega)
  · exact Or.inl (by omega)
  · exact Or.inr ⟨by omega, lexLe_trans _ _ _ h1' h2'⟩

theorem dictInsert_keys {α β : Type} [DecidableEq α] (m : List (α × β)) (k : α) (v : β) :
    (dictInsert m k v).map Prod.fst =
      if k ∈ m.map Prod.fst then m.map Prod.fst else m.map Prod.fst ++ [k] := by
  unfold dictInsert
  split
  · rw [List.map_map]
    apply List.map_congr_left
    intro kv _
    show (if kv.1 = k then (kv.1, v) else kv).1 = kv.1
    split <;> rfl
  · rw [List.map_append]
    rfl

theorem dictInsert_keys_nodup {α β : Type} [DecidableEq α] {m : List (α × β)}
    (h : (m.map Prod.fst).Nodup) (k : α) (v : β) :
    ((dictInsert m k v).map Prod.fst).Nodup := by
  rw [dictInsert_keys]
  split
  · exact h
  · rename_i hk
    rw [List.nodup_append]
    refine ⟨h, by simp, ?_⟩
    intro a ha hmem
    have : a = k := by simpa using hmem
    rw [this] at ha
    exact hk ha

theorem mem_dictInsert {α β : Type} [DecidableEq α] (m : List (α × β)) (k0 : α) (v0 : β)
    (k : α) (v : β) :
    (k, v) ∈ dictInsert m k0 v0 ↔ (k = k0 ∧ v = v0) ∨ ((k, v) ∈ m ∧ k ≠ k0) := by
  unfold dictInsert
  split
  · rename_i hk0
    constructor
    · intro hmem
      obtain ⟨kv0, hkv0, he⟩ := List.mem_map.1 hmem
      by_cases hk : kv0.1 = k0
      · rw [if_pos hk] at he
        left
        have h1 : kv0.1 = k := congrArg Prod.fst he
        have h2 : v0 = v := congrArg Prod.snd he
        exact ⟨h1 ▸ hk, h2.symm⟩
      · rw [if_neg hk] at he
        right
        rw [← he]
        exact ⟨hkv0, fun hc => hk ((congrArg Prod.fst he).symm ▸ hc : kv0.1 = k0)⟩
    · rintro (⟨hk, hv⟩ | ⟨hmem, hk⟩)
      · obtain ⟨e, hem, hee⟩ := List.mem_map.1 hk0
        obtain ⟨k1, v1⟩ := e
        refine List.mem_map.2 ⟨(k1, v1), hem, ?_⟩
        have hk1 : k1 = k0 := hee
        rw [if_pos hk1]
        rw [hk, hv, hk1]
      · refine List.mem_map.2 ⟨(k, v), hmem, ?_⟩
        rw [if_neg (by simpa using hk)]
  · rename_i hk0
    rw [List.mem_append]
    constructor
    · rintro (h | h)
      · refine Or.inr ⟨h, ?_⟩
        intro hc
        apply hk0
        rw [← hc]
        exact List.mem_map_of_mem Prod.fst h
      · have he : (k, v) = (k0, v0) := by simpa using h
        exact Or.inl ⟨congrArg Prod.fst he, congrArg Prod.snd he⟩
    · rintro (⟨hk, hv⟩ | ⟨hmem, _⟩)
      · right
        rw [hk, hv]
        simp
      · exact Or.inl hmem

/-- The last row of a list carrying a given dedup key, if any (the spec's
"later record wins entirely" rule). -/
def lastWithKey : List Paper → (String × Int) → Option Paper
  | [], _ => none
  | r :: rs, k =>
    match lastWithKey rs k with
    | some v => some v
    | none => if paperKey r = k then some r else none

theorem lastWithKey_none (rows : List Paper) (k : String × Int) :
    lastWithKey rows k = none ↔ ∀ q ∈ rows, paperKey q ≠ k := by
  induction rows with
  | nil => simp [lastWithKey]
  | cons r rs ih =>
    constructor
    · intro h q hq
      unfold lastWithKey at h
      cases hl : lastWithKey rs k with
      | some v =>
        rw [hl] at h
        simp at h
      | none =>
        rw [hl] at h
        have h2 : (if paperKey r = k then some r else none) = none := h
        rcases List.mem_cons.1 hq with he | hm
        · intro hk
          rw [he] at hk
          rw [if_pos hk] at h2
          simp at h2
        · exact (ih.1 hl) q hm
    · intro h
      unfold lastWithKey
      have hl : lastWithKey rs k = none :=
        ih.2 (fun q hq => h q (List.mem_cons_of_mem r hq))
      rw [hl]
      show (if paperKey r = k then some r else none) = none
      rw [if_neg (h r (List.mem_cons_self _ _))]

theorem lastWithKey_iff (rows : List Paper) (k : String × Int) (p : Paper) :
    lastWithKey rows k = some p ↔
      (paperKey p = k ∧
        ∃ l1 l2, rows = l1 ++ p :: l2 ∧ ∀ q ∈ l2, paperKey q ≠ paperKey p) := by
  constructor
  · induction rows with
    | nil => intro h; simp [lastWithKey] at h
    | cons r rs ih =>
      intro h
      unfold lastWithKey at h
      cases hl : lastWithKey rs k with
      | some v =>
        rw [hl] at h
        have h2 : some v = some p := h
        injection h2 with hv
        rw [hv] at hl
        obtain ⟨hkp, l1, l2, he, hq⟩ := ih hl
        exact ⟨hkp, r :: l1, l2, by rw [he]; rfl, hq⟩
      | none =>
        rw [hl] at h
        have h2 : (if paperKey r = k then some r else none) = some p := h
        by_cases hk : paperKey r = k
        · rw [if_pos hk] at h2
          injection h2 with hrp
          refine ⟨by rw [← hrp]; exact hk, [], rs, by rw [hrp]; rfl, ?_⟩
          intro q hq hkq
          apply (lastWithKey_none rs k).1 hl q hq
          rw [hkq, ← hrp]
          exact hk
        · rw [if_neg hk] at h2
          simp at h2
  · rintro ⟨hkp, l1, l2, he, hl2⟩
    subst he
    induction l1 with
    | nil =>
      show lastWithKey (p :: l2) k = some p
      unfold lastWithKey
      have hl : lastWithKey l2 k = none :=
        (lastWithKey_none l2 k).2 (fun q hq hc => hl2 q hq (by rw [hc, ← hkp]))
      rw [hl]
      show (if paperKey p = k then some p else none) = some p
      rw [if_pos hkp]
    | cons a l1' ih1 =>
      show lastWithKey (a :: (l1' ++ p :: l2)) k = some p
      unfold lastWithKey
      rw [ih1]

theorem foldl_dictInsert_mem :
    ∀ (rows : List Paper) (m : List ((String × Int) × Paper)) (k : String × Int) (v : Paper),
    ((k, v) ∈ rows.foldl (fun m r => dictInsert m (paperKey r) r) m ↔
      (lastWithKey rows k = some v ∨ (lastWithKey rows k = none ∧ (k, v) ∈ m))) := by
  intro rows
  induction rows with
  | nil =>
    intro m k v
    simp [lastWithKey]
  | cons r rs ih =>
    intro m k v
    rw [List.foldl_cons, ih (dictInsert m (paperKey r) r) k v]
    cases hl : lastWithKey rs k with
    | some v' =>
      have hcons : lastWithKey (r :: rs) k = some v' := by
        show (match lastWithKey rs k with
          | some v => some v
          | none => if paperKey r = k then some r else none) = some v'
        rw [hl]
      rw [hcons]
      simp
    | none =>
      have hcons : lastWithKey (r :: rs) k = if paperKey r = k then some r else none := by
        show (match lastWithKey rs k with
          | some v => some v
          | none => if paperKey r = k then some r else none) = _
        rw [hl]
      rw [hcons, mem_dictInsert]
      by_cases hk : paperKey r = k
      · rw [if_pos hk]
        simp [hk, eq_comm]
      · rw [if_neg hk]
        simp only [hl, reduceCtorEq, false_or, and_true, true_and, ne_eq]
        constructor
        · rintro (⟨hk2, _⟩ | ⟨hm2, _⟩)
          · exact absurd hk2.symm hk
          · exact hm2
        · intro hm2
          exact Or.inr ⟨hm2, fun hc => hk hc.symm⟩

theorem dictInsert_key_inv {m : List ((String × Int) × Paper)}
    (h : ∀ kv ∈ m, paperKey kv.2 = kv.1) (r : Paper) :
    ∀ kv ∈ dictInsert m (paperKey r) r, paperKey kv.2 = kv.1 := by
  intro kv hkv
  unfold dictInsert at hkv
  split at hkv
  · obtain ⟨kv0, hkv0, he⟩ := List.mem_map.1 hkv
    rw [← he]
    by_cases hk : kv0.1 = paperKey r
    · rw [if_pos hk]
      show paperKey r = kv0.1
      exact hk.symm
    · rw [if_neg hk]
      exact h kv0 hkv0
  · rcases List.mem_append.1 hkv with h1 | h1
    · exact h kv h1
    · have he : kv = (paperKey r, r) := by simpa using h1
      rw [he]

theorem dedupDict_key_inv (rows : List Paper) :
    ∀ kv ∈ dedupDict rows, paperKey kv.2 = kv.1 := by
  suffices h : ∀ (rows : List Paper) (m : List ((String × Int) × Paper)),
      (∀ kv ∈ m, paperKey kv.2 = kv.1) →
      ∀ kv ∈ rows.foldl (fun m r => dictInsert m (paperKey r) r) m, paperKey kv.2 = kv.1 by
    exact h rows [] (by simp)
  intro rows'
  induction rows' with
  | nil => intro m hm; simpa using hm
  | cons r rs ih =>
    intro m hm
    rw [List.foldl_cons]
    exact ih _ (dictInsert_key_inv hm r)

theorem dedupDict_keys_nodup (rows : List Paper) :
    ((dedupDict rows).map Prod.fst).Nodup := by
  suffices h : ∀ (rows : List Paper) (m : List ((String × Int) × Paper)),
      ((m.map Prod.fst).Nodup) →
      (((rows.foldl (fun m r => dictInsert m (paperKey r) r) m).map Prod.fst)).Nodup by
    exact h rows [] (by simp)
  intro rows'
  induction rows' with
  | nil => intro m hm; simpa using hm
  | cons r rs ih =>
    intro m hm
    rw [List.foldl_cons]
    exact ih _ (dictInsert_keys_nodup hm _ _)

theorem dedupDict_mem_values (rows : List Paper) (p : Paper) :
    p ∈ (dedupDict rows).map Prod.snd ↔ lastWithKey rows (paperKey p) = some p := by
  constructor
  · intro h
    obtain ⟨kv, hkv, he⟩ := List.mem_map.1 h
    obtain ⟨k, v⟩ := kv
    have hv : v = p := he
    subst hv
    have hk : paperKey v = k := dedupDict_key_inv rows (k, v) hkv
    have hmem := (foldl_dictInsert_mem rows [] k v).1 hkv
    rcases hmem with h1 | ⟨_, h2⟩
    · rw [hk]
      exact h1
    · simp at h2
  · intro h
    have hmem : (paperKey p, p) ∈ dedupDict rows :=
      (foldl_dictInsert_mem rows [] (paperKey p) p).2 (Or.inl h)
    exact List.mem_map.2 ⟨(paperKey p, p), hmem, rfl⟩

theorem dedup_sorted_perm (rows : List Paper) :
    (dedup_sorted rows).Perm ((dedupDict rows).map Prod.snd) :=
  List.perm_insertionSort paperLE _

theorem dedup_sorted_mem (rows : List Paper) (p : Paper) :
    p ∈ dedup_sorted rows ↔ lastWithKey rows (paperKey p) = some p := by
  rw [List.Perm.mem_iff (dedup_sorted_perm rows)]
  exact dedupDict_mem_values rows p

theorem dedup_sorted_keys_pairwise (rows : List Paper) :
    (dedup_sorted rows).Pairwise (fun a b => paperKey a ≠ paperKey b) := by
  have h2 : (((dedupDict rows).map Prod.snd).map paperKey).Nodup := by
    rw [List.map_map]
    have he : (dedupDict rows).map (paperKey ∘ Prod.snd) = (dedupDict rows).map Prod.fst :=
      List.map_congr_left (fun kv hkv => dedupDict_key_inv rows kv hkv)
    rw [he]
    exact dedupDict_keys_nodup rows
  have h1 : ((dedupDict rows).map Prod.snd).Pairwise (fun a b => paperKey a ≠ paperKey b) :=
    List.pairwise_map.1 h2
  exact (List.Perm.pairwise_iff (fun h he => h he.symm) (dedup_sorted_perm rows)).2 h1

theorem dedup_sorted_sorted (rows : List Paper) :
    (dedup_sorted rows).Pairwise paperLE :=
  List.sorted_insertionSort paperLE _

/-! ## Loader lemmas -/

theorem lastWithKey_some : ∀ (rows : List Paper) (k : String × Int) (v : Paper),
    lastWithKey rows k = some v → v ∈ rows := by
  intro rows
  induction rows with
  | nil => intro k v h; simp [lastWithKey] at h
  | cons r rs ih =>
    intro k v h
    unfold lastWithKey at h
    cases hl : lastWithKey rs k with
    | some v' =>
      rw [hl] at h
      have h2 : some v' = some v := h
      injection h2 with hv
      exact List.mem_cons_of_mem r (hv ▸ ih k v' hl)
    | none =>
      rw [hl] at h
      have h2 : (if paperKey r = k then some r else none) = some v := h
      by_cases hk : paperKey r = k
      · rw [if_pos hk] at h2
        injection h2 with hv
        rw [← hv]
        exact List.mem_cons_self _ _
      · rw [if_neg hk] at h2
        simp at h2

theorem normalizeRecord_ok_some {hash : String → Int} {row : JVal} {p : Paper}
    (h : normalizeRecord hash row = .ok (some p)) : p.title ≠ "" ∧ 0 < p.year := by
  cases row with
  | jobj fields =>
    simp only [normalizeRecord] at h
    split at h
    · simp at h
    · rename_i year hy
      split at h
      · simp at h
      · rename_i hcond
        rw [not_or] at hcond
        obtain ⟨ht, hy2⟩ := hcond
        injection h with h3
        injection h3 with h4
        rw [← h4]
        refine ⟨ht, ?_⟩
        show (0 : Int) < year
        omega
  | jnull => simp [normalizeRecord] at h
  | jbool b => simp [normalizeRecord] at h
  | jint n => simp [normalizeRecord] at h
  | jstr s => simp [normalizeRecord] at h
  | jarr xs => simp [normalizeRecord] at h

theorem except_isOk_map {ε α β : Type} (f : α → β) (e : Except ε α) :
    (e.map f).isOk = e.isOk := by
  cases e <;> rfl

theorem parseLines_mem (jparse : String → Option JVal) (hash : String → Int) :
    ∀ (lines : List String) (ps : List Paper),
    parseLines jparse hash lines = .ok ps →
    ∀ p ∈ ps, ∃ row, normalizeRecord hash row = .ok (some p) := by
  intro lines
  induction lines with
  | nil =>
    intro ps h p hp
    injection h with h2
    rw [← h2] at hp
    simp at hp
  | cons raw rest ih =>
    intro ps h p hp
    simp only [parseLines] at h
    by_cases hline : pyStrip raw = ""
    · rw [if_pos hline] at h
      exact ih ps h p hp
    · rw [if_neg hline] at h
      cases hj : jparse (pyStrip raw) with
      | none =>
        rw [hj] at h
        simp at h
      | some row =>
        rw [hj] at h
        have hmm : (match normalizeRecord hash row with
            | Except.error e => (Except.error e : Except String (List Paper))
            | Except.ok none => parseLines jparse hash rest
            | Except.ok (some p) =>
              Except.map (fun ps => p :: ps) (parseLines jparse hash rest)) =
            Except.ok ps := h
        cases hn : normalizeRecord hash row with
        | error e =>
          rw [hn] at hmm
          simp at hmm
        | ok po =>
          rw [hn] at hmm
          cases po with
          | none =>
            have h2 : parseLines jparse hash rest = .ok ps := hmm
            exact ih ps h2 p hp
          | some q =>
            have h2 : (parseLines jparse hash rest).map (fun ps => q :: ps) = .ok ps := hmm
            cases hr : parseLines jparse hash rest with
            | error e =>
              rw [hr] at h2
              simp [Except.map] at h2
            | ok ps' =>
              rw [hr] at h2
              have h3 : q :: ps' = ps := by simpa [Except.map] using h2
              rw [← h3] at hp
              rcases List.mem_cons.1 hp with he | hm
              · exact ⟨row, by rw [hn, he]⟩
              · exact ih ps' hr p hm

theorem loadRows_mem (jparse : String → Option JVal) (hash : String → Int) :
    ∀ (sources : List (Option String)) (ps : List Paper),
    loadRows jparse hash sources = .ok ps →
    ∀ p ∈ ps, ∃ row, normalizeRecord hash row = .ok (some p) := by
  intro sources
  induction sources with
  | nil =>
    intro ps h p hp
    injection h with h2
    rw [← h2] at hp
    simp at hp
  | cons src rest ih =>
    intro ps h p hp
    cases src with
    | none => simp [loadRows] at h
    | some content =>
      simp only [loadRows, bind, Except.bind] at h
      cases hpl : parseLines jparse hash (splitLines content) with
      | error e =>
        rw [hpl] at h
        simp at h
      | ok ps1 =>
        rw [hpl] at h
        cases hlr : loadRows jparse hash rest with
        | error e =>
          rw [hlr] at h
          simp at h
        | ok ps2 =>
          rw [hlr] at h
          have h3 : ps1 ++ ps2 = ps := by simpa using h
          rw [← h3] at hp
          rcases List.mem_append.1 hp with hm | hm
          · exact parseLines_mem jparse hash _ ps1 hpl p hm
          · exact ih ps2 hlr p hm

/-- Every paper in a successfully loaded corpus has a non-empty title and a
positive year. -/
theorem load_jsonl_mem (jparse : String → Option JVal) (hash : String → Int)
    (sources : List (Option String)) (out : List Paper)
    (h : load_jsonl jparse hash sources = .ok out) :
    ∀ p ∈ out, p.title ≠ "" ∧ 0 < p.year := by
  intro p hp
  unfold load_jsonl at h
  cases hlr : loadRows jparse hash sources with
  | error e =>
    rw [hlr] at h
    simp [Except.map] at h
  | ok rows =>
    rw [hlr] at h
    have h2 : dedup_sorted rows = out := by simpa [Except.map] using h
    rw [← h2] at hp
    have h3 := (dedup_sorted_mem rows p).1 hp
    have h4 : p ∈ rows := lastWithKey_some rows (paperKey p) p h3
    obtain ⟨row, hrow⟩ := loadRows_mem jparse hash sources rows hlr p h4
    exact normalizeRecord_ok_some hrow

theorem parseLines_isOk (jparse : String → Option JVal) (hash : String → Int) :
    ∀ (lines : List String),
    (parseLines jparse hash lines).isOk = true ↔
      ∀ raw ∈ lines, pyStrip raw = "" ∨
        ∃ v, jparse (pyStrip raw) = some v ∧ ∃ r, normalizeRecord hash v = .ok r := by
  intro lines
  induction lines with
  | nil => simp [parseLines, Except.isOk, Except.toBool]
  | cons raw rest ih =>
    simp only [parseLines]
    by_cases hline : pyStrip raw = ""
    · rw [if_pos hline]
      constructor
      · intro h q hq
        rcases List.mem_cons.1 hq with he | hm
        · rw [he]
          exact Or.inl hline
        · exact (ih.1 h) q hm
      · intro h
        exact ih.2 (fun q hq => h q (List.mem_cons_of_mem raw hq))
    · rw [if_neg hline]
      cases hj : jparse (pyStrip raw) with
      | none =>
        constructor
        · intro h
          simp [Except.isOk, Except.toBool] at h
        · intro h
          rcases h raw (List.mem_cons_self _ _) with he | ⟨v, hv, _⟩
          · exact absurd he hline
          · rw [hj] at hv
            simp at hv
      | some row =>
        show ((match normalizeRecord hash row with
            | Except.error e => (Except.error e : Except String (List Paper))
            | Except.ok none => parseLines jparse hash rest
            | Except.ok (some p) =>
              Except.map (fun ps => p :: ps) (parseLines jparse hash rest)).isOk = true) ↔ _
        cases hn : normalizeRecord hash row with
        | error e =>
          constructor
          · intro h
            simp [Except.isOk, Except.toBool] at h
          · intro h
            rcases h raw (List.mem_cons_self _ _) with he | ⟨v, hv, r', hr'⟩
            · exact absurd he hline
            · rw [hj] at hv
              injection hv with hv2
              rw [← hv2, hn] at hr'
              simp at hr'
        | ok po =>
          have hhead : pyStrip raw = "" ∨
              ∃ v, jparse (pyStrip raw) = some v ∧ ∃ r, normalizeRecord hash v = .ok r :=
            Or.inr ⟨row, hj, po, hn⟩
          cases po with
          | none =>
            constructor
            · intro h q hq
              rcases List.mem_cons.1 hq with he | hm
              · rw [he]
                exact hhead
              · exact (ih.1 h) q hm
            · intro h
              exact ih.2 (fun q hq => h q (List.mem_cons_of_mem raw hq))
          | some q0 =>
            rw [except_isOk_map]
            constructor
            · intro h q hq
              rcases List.mem_cons.1 hq with he | hm
              · rw [he]
                exact hhead
              · exact (ih.1 h) q hm
            · intro h
              exact ih.2 (fun q hq => h q (List.mem_cons_of_mem raw hq))

theorem loadRows_isOk (jparse : String → Option JVal) (hash : String → Int) :
    ∀ (sources : List (Option String)),
    (loadRows jparse hash sources).isOk = true ↔
      ∀ src ∈ sources, ∃ content, src = some content ∧
        (parseLines jparse hash (splitLines content)).isOk = true := by
  intro sources
  induction sources with
  | nil => simp [loadRows, Except.isOk, Except.toBool]
  | cons src rest ih =>
    cases src with
    | none =>
      constructor
      · intro h
        simp [loadRows, Except.isOk, Except.toBool] at h
      · intro h
        obtain ⟨content, hc, _⟩ := h none (List.mem_cons_self _ _)
        simp at hc
    | some content =>
      show ((do
        let ps ← parseLines jparse hash (splitLines content)
        let qs ← loadRows jparse hash rest
        (Except.ok (ps ++ qs) : Except String (List Paper))).isOk = true) ↔ _
      constructor
      · intro h
        cases hpl : parseLines jparse hash (splitLines content) with
        | error e =>
          rw [show (do
            let ps ← parseLines jparse hash (splitLines content)
            let qs ← loadRows jparse hash rest
            (Except.ok (ps ++ qs) : Except String (List Paper))) = Except.error e by
              simp [hpl, bind, Except.bind]] at h
          simp [Except.isOk, Except.toBool] at h
        | ok ps =>
          cases hlr : loadRows jparse hash rest with
          | error e =>
            rw [show (do
              let ps ← parseLines jparse hash (splitLines content)
              let qs ← loadRows jparse hash rest
              (Except.ok (ps ++ qs) : Except String (List Paper))) = Except.error e by
                simp [hpl, hlr, bind, Except.bind]] at h
            simp [Except.isOk, Except.toBool] at h
          | ok qs =>
            intro s hs
            rcases List.mem_cons.1 hs with he | hm
            · exact ⟨content, by rw [he], by rw [hpl]; rfl⟩
            · exact (ih.1 (by rw [hlr]; rfl)) s hm
      · intro h
        obtain ⟨c1, hc1, hok1⟩ := h (some content) (List.mem_cons_self _ _)
        have hc1' : content = c1 := by injection hc1
        rw [← hc1'] at hok1
        have hok2 : (loadRows jparse hash rest).isOk = true :=
          ih.2 (fun s hs => h s (List.mem_cons_of_mem _ hs))
        cases hpl : parseLines jparse hash (splitLines content) with
        | error e =>
          rw [hpl] at hok1
          simp [Except.isOk, Except.toBool] at hok1
        | ok ps =>
          cases hlr : loadRows jparse hash rest with
          | error e =>
            rw [hlr] at hok2
            simp [Except.isOk, Except.toBool] at hok2
          | ok qs =>
            rfl

/-- The loader succeeds exactly when every declared source exists and every
non-blank line of it decodes to a JSON value that the normalizer accepts
without raising. -/
theorem load_jsonl_isOk (jparse : String → Option JVal) (hash : String → Int)
    (sources : List (Option String)) :
    (load_jsonl jparse hash sources).isOk = true ↔
      ∀ src ∈ sources, ∃ content, src = some content ∧
        ∀ raw ∈ splitLines content, pyStrip raw = "" ∨
          ∃ v, jparse (pyStrip raw) = some v ∧ ∃ r, normalizeRecord hash v = .ok r := by
  unfold load_jsonl
  rw [except_isOk_map, loadRows_isOk]
  constructor
  · intro h src hs
    obtain ⟨content, hc, hok⟩ := h src hs
    exact ⟨content, hc, (parseLines_isOk jparse hash _).1 hok⟩
  · intro h src hs
    obtain ⟨content, hc, hok⟩ := h src hs
    exact ⟨content, hc, (parseLines_isOk jparse hash _).2 hok⟩

/-- The silent-skip condition of the normalizer: an object record is dropped
without error exactly when its year value converts (a falsy or missing year
counting as 0) and the trimmed title is empty or the year is ≤ 0. -/
theorem normalizeRecord_skip_iff (hash : String → Int) (fields : List (String × JVal)) :
    normalizeRecord hash (.jobj fields) = .ok none ↔
      ∃ y, pyInt (pyOr (jget fields "year" (.jint 0)) (.jint 0)) = some y ∧
        (pyStrip (pyStr (jget fields "title" (.jstr ""))) = "" ∨ y ≤ 0) := by
  simp only [normalizeRecord]
  cases hy : pyInt (pyOr (jget fields "year" (.jint 0)) (.jint 0)) with
  | none =>
    simp
  | some year =>
    show (if pyStrip (pyStr (jget fields "title" (.jstr ""))) = "" ∨ year ≤ 0
        then (Except.ok none : Except String (Option Paper))
        else Except.ok (some _)) = Except.ok none ↔ _
    by_cases hc : pyStrip (pyStr (jget fields "title" (.jstr ""))) = "" ∨ year ≤ 0
    · rw [if_pos hc]
      constructor
      · intro _
        exact ⟨year, rfl, hc⟩
      · intro _
        rfl
    · rw [if_neg hc]
      constructor
      · intro h
        simp at h
      · rintro ⟨y, hy2, hcond⟩
        injection hy2 with hyy
        exact absurd (hyy ▸ hcond) hc

/-! ## Synthesizer lemmas -/

theorem training_rows_for_props (p : Paper) :
    3 ≤ (training_rows_for p).length ∧
    (p.domain = "crisis-management" → (training_rows_for p).length = 4) ∧
    ∀ r ∈ training_rows_for p,
      r.label = paper_to_label p.domain ∧ r.next_action = p.action_hint ∧
      r.paper_id = p.id ∧ r.source_url = p.source_url := by
  refine ⟨?_, ?_, ?_⟩
  · show 3 ≤ ((prompts_for p).map _).length
    rw [List.length_map]
    unfold prompts_for
    simp only [List.length_append, List.length_cons, List.length_nil]
    split <;> split <;> split <;> split <;> simp
  · intro hd
    show ((prompts_for p).map _).length = 4
    rw [List.length_map]
    unfold prompts_for
    rw [hd]
    rw [if_neg (by decide : ¬ ("crisis-management" : String) ∈ NEURO_DOMAINS),
      if_pos (by decide : ("crisis-management" : String) ∈ EMERGENCY_DOMAINS),
      if_neg (by decide : ¬ ("crisis-management" : String) ∈ HUMAN_DOMAINS),
      if_neg (by decide : ¬ ("crisis-management" : String) ∈ INNOVATION_DOMAINS)]
    simp
  · intro r hr
    obtain ⟨prompt, _, he⟩ := List.mem_map.1 hr
    rw [← he]
    exact ⟨rfl, rfl, rfl, rfl⟩

/-- `build_training_rows` is the concatenation of the per-paper rows. -/
theorem build_training_rows_eq (rows : List Paper) :
    build_training_rows rows = (rows.map training_rows_for).flatten := by
  suffices h : ∀ (rows : List Paper) (acc : List TrainingRow),
      rows.foldl (fun acc row => acc ++ training_rows_for row) acc =
        acc ++ (rows.map training_rows_for).flatten by
    have := h rows []
    simpa [build_training_rows] using this
  intro rows'
  induction rows' with
  | nil => intro acc; simp
  | cons r rs ih =>
    intro acc
    rw [List.foldl_cons, ih]
    simp

/-! ## Idempotence of the merge for arbitrary base contents

The `prompt_to_index` dict maps every non-empty normalized prompt to its
LAST occurrence (later `dict` writes win), so after one merge run the last
occurrence of each generated key holds that generated row's `label` and
`next_action`; a second run with the same rows then finds every lookup
unchanged and is the identity on the state. None of this needs any
hypothesis on the base rows. -/

/-- A key that misses the index occurs on no row (for non-empty keys: rows
with an empty key are the only unindexed ones). -/
theorem buildIdxFrom_none : ∀ (l : List BaseRow) (s : Nat) (k : String), k ≠ "" →
    lookupKey (buildIdxFrom l s) k = none →
    ∀ (j : Nat) (b : BaseRow), l[j]? = some b → keyB b ≠ k := by
  intro l
  induction l with
  | nil => intro s k _ _ j b hj; simp at hj
  | cons b0 l ih =>
    intro s k hk h j b hj
    unfold buildIdxFrom at h
    by_cases hk0 : keyB b0 = ""
    · rw [if_pos hk0] at h
      match j with
      | 0 =>
        simp only [List.getElem?_cons_zero, Option.some.injEq] at hj
        rw [← hj]
        intro he
        exact hk (by rw [← he]; exact hk0)
      | j + 1 =>
        simp only [List.getElem?_cons_succ] at hj
        exact ih (s + 1) k hk h j b hj
    · rw [if_neg hk0, lookupKey_append] at h
      cases htail : lookupKey (buildIdxFrom l (s + 1)) k with
      | some i2 =>
        rw [htail] at h
        simp [Option.or] at h
      | none =>
        rw [htail] at h
        simp only [Option.or] at h
        unfold lookupKey at h
        by_cases hkk : k = keyB b0
        · rw [if_pos hkk] at h
          simp at h
        · match j with
          | 0 =>
            simp only [List.getElem?_cons_zero, Option.some.injEq] at hj
            rw [← hj]
            exact fun he => hkk he.symm
          | j + 1 =>
            simp only [List.getElem?_cons_succ] at hj
            exact ih (s + 1) k hk htail j b hj

/-- A successful index lookup points at the LAST row with that key: no
strictly later position carries it (the dict's later writes win). -/
theorem buildIdxFrom_sound_last : ∀ (l : List BaseRow) (s : Nat) (k : String) (i : Nat),
    lookupKey (buildIdxFrom l s) k = some i →
    ∃ j b, l[j]? = some b ∧ keyB b = k ∧ i = s + j ∧
      ∀ (q : Nat) (b' : BaseRow), j < q → l[q]? = some b' → keyB b' ≠ k := by
  intro l
  induction l with
  | nil => intro s k i h; simp [buildIdxFrom, lookupKey] at h
  | cons b0 l ih =>
    intro s k i h
    unfold buildIdxFrom at h
    by_cases hk0 : keyB b0 = ""
    · rw [if_pos hk0] at h
      obtain ⟨j, b, hj, hkb, hi, hmax⟩ := ih (s + 1) k i h
      refine ⟨j + 1, b, by simpa using hj, hkb, by omega, ?_⟩
      intro q b' hq hqe
      cases q with
      | zero => omega
      | succ q' =>
        simp only [List.getElem?_cons_succ] at hqe
        exact hmax q' b' (by omega) hqe
    · rw [if_neg hk0, lookupKey_append] at h
      cases htail : lookupKey (buildIdxFrom l (s + 1)) k with
      | some i2 =>
        rw [htail] at h
        simp only [Option.or, Option.some.injEq] at h
        obtain ⟨j, b, hj, hkb, hi, hmax⟩ := ih (s + 1) k i2 htail
        refine ⟨j + 1, b, by simpa using hj, hkb, by omega, ?_⟩
        intro q b' hq hqe
        cases q with
        | zero => omega
        | succ q' =>
          simp only [List.getElem?_cons_succ] at hqe
          exact hmax q' b' (by omega) hqe
      | none =>
        rw [htail] at h
        simp only [Option.or] at h
        unfold lookupKey at h
        by_cases hkk : k = keyB b0
        · rw [if_pos hkk] at h
          simp only [Option.some.injEq] at h
          refine ⟨0, b0, by simp, hkk.symm, by omega, ?_⟩
          intro q b' hq hqe
          cases q with
          | zero => omega
          | succ q' =>
            simp only [List.getElem?_cons_succ] at hqe
            exact buildIdxFrom_none l (s + 1) k (by rw [hkk]; exact hk0) htail q' b' hqe
        · rw [if_neg hkk] at h
          simp [lookupKey] at h

/-- Conversely, the last row carrying a non-empty key is what the index
lookup returns. -/
theorem buildIdxFrom_last : ∀ (l : List BaseRow) (s : Nat) (k : String) (j : Nat)
    (b : BaseRow), k ≠ "" → l[j]? = some b → keyB b = k →
    (∀ (q : Nat) (b' : BaseRow), j < q → l[q]? = some b' → keyB b' ≠ k) →
    lookupKey (buildIdxFrom l s) k = some (s + j) := by
  intro l
  induction l with
  | nil => intro s k j b _ hj; simp at hj
  | cons b0 l ih =>
    intro s k j b hk hj hkb hmax
    unfold buildIdxFrom
    by_cases hk0 : keyB b0 = ""
    · rw [if_pos hk0]
      cases j with
      | zero =>
        exfalso
        simp only [List.getElem?_cons_zero, Option.some.injEq] at hj
        rw [← hj] at hkb
        exact hk (by rw [← hkb]; exact hk0)
      | succ j' =>
        simp only [List.getElem?_cons_succ] at hj
        have hmax' : ∀ (q : Nat) (b' : BaseRow), j' < q → l[q]? = some b' → keyB b' ≠ k := by
          intro q b' hq hqe
          exact hmax (q + 1) b' (by omega) (by simpa using hqe)
        have hrec := ih (s + 1) k j' b hk hj hkb hmax'
        rw [hrec]
        congr 1
        omega
    · rw [if_neg hk0, lookupKey_append]
      cases j with
      | zero =>
        simp only [List.getElem?_cons_zero, Option.some.injEq] at hj
        have htail : lookupKey (buildIdxFrom l (s + 1)) k = none := by
          cases htail : lookupKey (buildIdxFrom l (s + 1)) k with
          | none => rfl
          | some i2 =>
            exfalso
            obtain ⟨j2, b2, hj2, hkb2, _⟩ := buildIdxFrom_sound l (s + 1) k i2 htail
            exact hmax (j2 + 1) b2 (by omega) (by simpa using hj2) hkb2
        rw [htail]
        simp only [Option.or]
        unfold lookupKey
        rw [if_pos (by rw [← hkb, ← hj])]
        simp
      | succ j' =>
        simp only [List.getElem?_cons_succ] at hj
        have hmax' : ∀ (q : Nat) (b' : BaseRow), j' < q → l[q]? = some b' → keyB b' ≠ k := by
          intro q b' hq hqe
          exact hmax (q + 1) b' (by omega) (by simpa using hqe)
        have hrec := ih (s + 1) k j' b hk hj hkb hmax'
        rw [hrec]
        simp only [Option.or]
        congr 1
        omega

/-- After a merge run, the LAST row of the dataset carrying a generated
row's key holds that row's `label` and `next_action`. -/
def LastHolds (l : List BaseRow) (r : TrainingRow) : Prop :=
  ∃ (p : Nat) (b : BaseRow), l[p]? = some b ∧ keyB b = keyG r ∧
    b.label = r.label ∧ b.next_action = r.next_action ∧
    ∀ (q : Nat) (b' : BaseRow), p < q → l[q]? = some b' → keyB b' ≠ keyG r

/-- The state's index is exact for key `k`: a hit is the last merged row
with key `k`, a miss means no merged row carries `k`. -/
def ExactFor (st : MergeState) (k : String) : Prop :=
  (∀ (p : Nat), lookupKey st.index k = some p → ∃ b, st.merged[p]? = some b ∧ keyB b = k ∧
     ∀ (q : Nat) (b' : BaseRow), p < q → st.merged[q]? = some b' → keyB b' ≠ k) ∧
  (lookupKey st.index k = none →
    ∀ (q : Nat) (b' : BaseRow), st.merged[q]? = some b' → keyB b' ≠ k)

/-- One merge step for a row with a DIFFERENT key neither moves nor hides
the last occurrence of `r0`'s key. -/
theorem mergeStep_pres_lastHolds {st : MergeState} {r' r0 : TrainingRow}
    (hS : IdxSound st) (hne : keyG r0 ≠ keyG r')
    (hL : LastHolds st.merged r0) : LastHolds (mergeStep st r').merged r0 := by
  unfold LastHolds at hL ⊢
  obtain ⟨p, b, hp, hkb, hlbl, hact, hmax⟩ := hL
  cases hlk : lookupKey st.index (keyG r') with
  | some idx =>
    rw [mergeStep_update hlk]
    obtain ⟨b1, hb1, hkb1⟩ := hS (keyG r') idx hlk
    have hgetD : st.merged.getD idx dummyRow = b1 := by
      rw [List.getD_eq_getElem?_getD, hb1]
      rfl
    have hpidx : idx ≠ p := by
      intro he
      rw [he, hp] at hb1
      injection hb1 with hbe
      rw [← hbe] at hkb1
      exact hne (by rw [← hkb, hkb1])
    refine ⟨p, b, ?_, hkb, hlbl, hact, ?_⟩
    · show (st.merged.set idx _)[p]? = some b
      rw [List.getElem?_set, if_neg hpidx]
      exact hp
    · intro q b' hq hqe
      have hqe' : (st.merged.set idx { st.merged.getD idx dummyRow with
          label := r'.label, next_action := r'.next_action })[q]? = some b' := hqe
      rw [List.getElem?_set] at hqe'
      by_cases hqi : idx = q
      · rw [if_pos hqi] at hqe'
        by_cases hlt : idx < st.merged.length
        · rw [if_pos hlt] at hqe'
          injection hqe' with hbe
          rw [← hbe, hgetD]
          show keyB b1 ≠ keyG r0
          rw [hkb1]
          exact fun he => hne he.symm
        · rw [if_neg hlt] at hqe'
          simp at hqe'
      · rw [if_neg hqi] at hqe'
        exact hmax q b' hq hqe'
  | none =>
    rw [mergeStep_append hlk]
    have hplen : p < st.merged.length := by
      rcases List.getElem?_eq_some.1 hp with ⟨hh, _⟩
      exact hh
    refine ⟨p, b, ?_, hkb, hlbl, hact, ?_⟩
    · show (st.merged ++ [stripRow r'])[p]? = some b
      rw [List.getElem?_append, if_pos hplen]
      exact hp
    · intro q b' hq hqe
      have hqe' : (st.merged ++ [stripRow r'])[q]? = some b' := hqe
      rw [List.getElem?_append] at hqe'
      by_cases hql : q < st.merged.length
      · rw [if_pos hql] at hqe'
        exact hmax q b' hq hqe'
      · rw [if_neg hql] at hqe'
        have hlen : q < st.merged.length + 1 := by
          rcases List.getElem?_eq_some.1 hqe with ⟨hh, _⟩
          simpa using hh
        have hq0 : q - st.merged.length = 0 := by omega
        rw [hq0] at hqe'
        simp only [List.getElem?_cons_zero, Option.some.injEq] at hqe'
        rw [← hqe', keyB_stripRow]
        exact fun he => hne he.symm

/-- One merge step for a row with a DIFFERENT key keeps the index exact for
`k`. -/
theorem mergeStep_pres_exactFor {st : MergeState} (r' : TrainingRow) (k : String)
    (hS : IdxSound st) (hne : k ≠ keyG r')
    (hE : ExactFor st k) : ExactFor (mergeStep st r') k := by
  unfold ExactFor at hE ⊢
  obtain ⟨hEs, hEn⟩ := hE
  cases hlk : lookupKey st.index (keyG r') with
  | some idx =>
    rw [mergeStep_update hlk]
    obtain ⟨b1, hb1, hkb1⟩ := hS (keyG r') idx hlk
    have hgetD : st.merged.getD idx dummyRow = b1 := by
      rw [List.getD_eq_getElem?_getD, hb1]
      rfl
    constructor
    · intro p hp
      have hp' : lookupKey st.index k = some p := hp
      obtain ⟨b, hb, hkb, hmax⟩ := hEs p hp'
      have hpidx : idx ≠ p := by
        intro he
        rw [he, hb] at hb1
        injection hb1 with hbe
        rw [← hbe] at hkb1
        exact hne (by rw [← hkb, hkb1])
      refine ⟨b, ?_, hkb, ?_⟩
      · show (st.merged.set idx _)[p]? = some b
        rw [List.getElem?_set, if_neg hpidx]
        exact hb
      · intro q b' hq hqe
        have hqe' : (st.merged.set idx { st.merged.getD idx dummyRow with
            label := r'.label, next_action := r'.next_action })[q]? = some b' := hqe
        rw [List.getElem?_set] at hqe'
        by_cases hqi : idx = q
        · rw [if_pos hqi] at hqe'
          by_cases hlt : idx < st.merged.length
          · rw [if_pos hlt] at hqe'
            injection hqe' with hbe
            rw [← hbe, hgetD]
            show keyB b1 ≠ k
            rw [hkb1]
            exact fun he => hne he.symm
          · rw [if_neg hlt] at hqe'
            simp at hqe'
        · rw [if_neg hqi] at hqe'
          exact hmax q b' hq hqe'
    · intro hp q b' hqe
      have hp' : lookupKey st.index k = none := hp
      have hall := hEn hp'
      have hqe' : (st.merged.set idx { st.merged.getD idx dummyRow with
          label := r'.label, next_action := r'.next_action })[q]? = some b' := hqe
      rw [List.getElem?_set] at hqe'
      by_cases hqi : idx = q
      · rw [if_pos hqi] at hqe'
        by_cases hlt : idx < st.merged.length
        · rw [if_pos hlt] at hqe'
          injection hqe' with hbe
          rw [← hbe, hgetD]
          show keyB b1 ≠ k
          rw [hkb1]
          exact fun he => hne he.symm
        · rw [if_neg hlt] at hqe'
          simp at hqe'
      · rw [if_neg hqi] at hqe'
        exact hall q b' hqe'
  | none =>
    rw [mergeStep_append hlk]
    constructor
    · intro p hp
      have hp' : lookupKey ((keyG r', st.merged.length) :: st.index) k = some p := hp
      unfold lookupKey at hp'
      rw [if_neg hne] at hp'
      obtain ⟨b, hb, hkb, hmax⟩ := hEs p hp'
      have hplen : p < st.merged.length := by
        rcases List.getElem?_eq_some.1 hb with ⟨hh, _⟩
        exact hh
      refine ⟨b, ?_, hkb, ?_⟩
      · show (st.merged ++ [stripRow r'])[p]? = some b
        rw [List.getElem?_append, if_pos hplen]
        exact hb
      · intro q b' hq hqe
        have hqe' : (st.merged ++ [stripRow r'])[q]? = some b' := hqe
        rw [List.getElem?_append] at hqe'
        by_cases hql : q < st.merged.length
        · rw [if_pos hql] at hqe'
          exact hmax q b' hq hqe'
        · rw [if_neg hql] at hqe'
          have hlen : q < st.merged.length + 1 := by
            rcases List.getElem?_eq_some.1 hqe with ⟨hh, _⟩
            simpa using hh
          have hq0 : q - st.merged.length = 0 := by omega
          rw [hq0] at hqe'
          simp only [List.getElem?_cons_zero, Option.some.injEq] at hqe'
          rw [← hqe', keyB_stripRow]
          exact fun he => hne he.symm
    · intro hp q b' hqe
      have hp' : lookupKey ((keyG r', st.merged.length) :: st.index) k = none := hp
      unfold lookupKey at hp'
      rw [if_neg hne] at hp'
      have hall := hEn hp'
      have hqe' : (st.merged ++ [stripRow r'])[q]? = some b' := hqe
      rw [List.getElem?_append] at hqe'
      by_cases hql : q < st.merged.length
      · rw [if_pos hql] at hqe'
        exact hall q b' hqe'
      · rw [if_neg hql] at hqe'
        have hlen : q < st.merged.length + 1 := by
          rcases List.getElem?_eq_some.1 hqe with ⟨hh, _⟩
          simpa using hh
        have hq0 : q - st.merged.length = 0 := by omega
        rw [hq0] at hqe'
        simp only [List.getElem?_cons_zero, Option.some.injEq] at hqe'
        rw [← hqe', keyB_stripRow]
        exact fun he => hne he.symm

/-- Folding rows whose keys all differ from `r0`'s preserves the last
occurrence of `r0`'s key. -/
theorem merge_foldl_pres_lastHolds : ∀ (gen : List TrainingRow) (st : MergeState)
    (r0 : TrainingRow), IdxSound st → (∀ r ∈ gen, keyG r0 ≠ keyG r) →
    LastHolds st.merged r0 →
    LastHolds ((List.foldl mergeStep st gen).merged) r0 := by
  intro gen
  induction gen with
  | nil =>
    intro st r0 _ _ hL
    exact hL
  | cons r gen ih =>
    intro st r0 hS hne hL
    rw [List.foldl_cons]
    exact ih (mergeStep st r) r0 (idxSound_step r hS)
      (fun r2 hr2 => hne r2 (List.mem_cons_of_mem _ hr2))
      (mergeStep_pres_lastHolds hS (hne r (List.mem_cons_self r gen)) hL)

/-- Processing a row whose key the index is exact for leaves the last
occurrence of that key holding the row's `label` and `next_action`. -/
theorem mergeStep_establish_lastHolds (st : MergeState) (r' : TrainingRow)
    (hE : ExactFor st (keyG r')) : LastHolds (mergeStep st r').merged r' := by
  unfold ExactFor at hE
  obtain ⟨hEs, hEn⟩ := hE
  unfold LastHolds
  cases hlk : lookupKey st.index (keyG r') with
  | some idx =>
    rw [mergeStep_update hlk]
    obtain ⟨b, hb, hkb, hmax⟩ := hEs idx hlk
    have hgetD : st.merged.getD idx dummyRow = b := by
      rw [List.getD_eq_getElem?_getD, hb]
      rfl
    have hlt : idx < st.merged.length := by
      rcases List.getElem?_eq_some.1 hb with ⟨hh, _⟩
      exact hh
    refine ⟨idx, { b with label := r'.label, next_action := r'.next_action },
      ?_, ?_, rfl, rfl, ?_⟩
    · show (st.merged.set idx { st.merged.getD idx dummyRow with
        label := r'.label, next_action := r'.next_action })[idx]? = some _
      rw [hgetD, List.getElem?_set, if_pos rfl, if_pos hlt]
    · show keyB b = keyG r'
      exact hkb
    · intro q b' hq hqe
      have hqe' : (st.merged.set idx { st.merged.getD idx dummyRow with
          label := r'.label, next_action := r'.next_action })[q]? = some b' := hqe
      rw [List.getElem?_set, if_neg (by omega : ¬ idx = q)] at hqe'
      exact hmax q b' hq hqe'
  | none =>
    rw [mergeStep_append hlk]
    have hall := hEn hlk
    refine ⟨st.merged.length, stripRow r', ?_, keyB_stripRow r', rfl, rfl, ?_⟩
    · show (st.merged ++ [stripRow r'])[st.merged.length]? = some (stripRow r')
      exact List.getElem?_concat_length _ _
    · intro q b' hq hqe
      exfalso
      have hqe' : (st.merged ++ [stripRow r'])[q]? = some b' := hqe
      rcases List.getElem?_eq_some.1 hqe' with ⟨hh, _⟩
      simp only [List.length_append, List.length_cons, List.length_nil] at hh
      omega

/-- After one merge run over rows with pairwise-distinct keys, starting from
a state whose index is exact for every one of those keys, the last dataset
occurrence of each generated key holds that row's values. No hypothesis on
the dataset contents. -/
theorem merge_foldl_lastHolds : ∀ (gen : List TrainingRow) (st : MergeState),
    ((gen.map keyG).Nodup) → IdxSound st →
    (∀ r ∈ gen, ExactFor st (keyG r)) →
    ∀ r ∈ gen, LastHolds ((List.foldl mergeStep st gen).merged) r := by
  intro gen
  induction gen with
  | nil =>
    intro st _ _ _ r hr
    simp at hr
  | cons r' gen ih =>
    intro st hd hS hE r hr
    rw [List.foldl_cons]
    have hd' : (gen.map keyG).Nodup := (List.nodup_cons.1 (by simpa using hd)).2
    have hnotin : keyG r' ∉ gen.map keyG := (List.nodup_cons.1 (by simpa using hd)).1
    have hS' := idxSound_step r' hS
    rcases List.mem_cons.1 hr with rfl | hm
    · refine merge_foldl_pres_lastHolds gen (mergeStep st r) r hS' ?_ ?_
      · intro r2 hr2 he
        exact hnotin (by rw [he]; exact List.mem_map_of_mem keyG hr2)
      · exact mergeStep_establish_lastHolds st r (hE r hr)
    · refine ih (mergeStep st r') hd' hS' ?_ r hm
      intro r2 hr2
      refine mergeStep_pres_exactFor r' (keyG r2) hS ?_ (hE r2 (List.mem_cons_of_mem _ hr2))
      intro he
      exact hnotin (by rw [← he]; exact List.mem_map_of_mem keyG hr2)

/-- A fold whose every row finds its own values already stored at its
looked-up position is the identity on the state. -/
theorem merge_foldl_fixed : ∀ (gen : List TrainingRow) (st : MergeState),
    (∀ r ∈ gen, ∃ (p : Nat) (b : BaseRow), lookupKey st.index (keyG r) = some p ∧
      st.merged[p]? = some b ∧ b.label = r.label ∧ b.next_action = r.next_action) →
    List.foldl mergeStep st gen = st := by
  intro gen
  induction gen with
  | nil =>
    intro st _
    rfl
  | cons r gen ih =>
    intro st h
    obtain ⟨p, b, hlk, hb, hlbl, hact⟩ := h r (List.mem_cons_self r gen)
    have hgetD : st.merged.getD p dummyRow = b := by
      rw [List.getD_eq_getElem?_getD, hb]
      rfl
    have hstep : mergeStep st r = st := by
      rw [mergeStep_update hlk, hgetD]
      have h1 : ({ b with label := r.label, next_action := r.next_action } : BaseRow) = b := by
        rw [← hlbl, ← hact]
      have h2 : (b.label != r.label || b.next_action != r.next_action) = false := by
        rw [hlbl, hact]
        simp
      rw [h1, h2, set_getElem?_self st.merged p b hb,
        if_neg (by simp : ¬ ((false : Bool) = true))]
    rw [List.foldl_cons, hstep]
    exact ih st (fun r2 hr2 => h r2 (List.mem_cons_of_mem _ hr2))

/-- Running the merge a second time with the same generated rows adds and
updates nothing, for ARBITRARY base contents (duplicate or empty base keys
included): only the generated rows' keys need to be non-empty and pairwise
distinct. -/
def initState (existing : List BaseRow) : MergeState :=
  { merged := existing, index := prompt_to_index existing, added := 0, updated := 0 }

theorem merge_twice_zero_any (ex : List BaseRow) (g : List TrainingRow)
    (hgn : ∀ r ∈ g, keyG r ≠ "") (hgd : (g.map keyG).Nodup) :
    (merge_into_base (merge_into_base ex g).1 g).2.1 = 0 ∧
    (merge_into_base (merge_into_base ex g).1 g).2.2 = 0 := by
  have hS0 : IdxSound (initState ex) := by
    intro k i h
    obtain ⟨j, b, hj, hkb, hi⟩ := buildIdxFrom_sound ex 0 k i h
    exact ⟨b, by rw [hi, Nat.zero_add]; exact hj, hkb⟩
  have hE0 : ∀ r ∈ g, ExactFor (initState ex) (keyG r) := by
    intro r hr
    unfold ExactFor
    constructor
    · intro p hp
      obtain ⟨j, b, hj, hkb, hij, hmax⟩ := buildIdxFrom_sound_last ex 0 (keyG r) p hp
      have hpj : p = j := by omega
      subst hpj
      exact ⟨b, hj, hkb, hmax⟩
    · intro hp q b' hqe
      exact buildIdxFrom_none ex 0 (keyG r) (hgn r hr) hp q b' hqe
  have hLH : ∀ r ∈ g, LastHolds (merge_into_base ex g).1 r := by
    have h := merge_foldl_lastHolds g (initState ex) hgd hS0 hE0
    intro r hr
    exact h r hr
  have hfix : List.foldl mergeStep (initState (merge_into_base ex g).1) g =
      initState (merge_into_base ex g).1 := by
    apply merge_foldl_fixed
    intro r hr
    have hL := hLH r hr
    unfold LastHolds at hL
    obtain ⟨p, b, hp, hkb, hlbl, hact, hmax⟩ := hL
    refine ⟨p, b, ?_, hp, hlbl, hact⟩
    show lookupKey (prompt_to_index (merge_into_base ex g).1) (keyG r) = some p
    have h := buildIdxFrom_last (merge_into_base ex g).1 0 (keyG r) p b
      (hgn r hr) hp hkb hmax
    rw [Nat.zero_add] at h
    exact h
  constructor
  · show (List.foldl mergeStep (initState (merge_into_base ex g).1) g).added = 0
    rw [hfix]
    rfl
  · show (List.foldl mergeStep (initState (merge_into_base ex g).1) g).updated = 0
    rw [hfix]
    rfl

/-! ## Claims -/

/-- Claim C1 counterexample: with an empty base and the generated sequence
`[⟨"  ","z","z"⟩, ⟨"p","a","x"⟩, ⟨"p","b","x"⟩]` (a whitespace-only prompt
plus two rows sharing the key `"p"` with different labels), the second run of
`merge_into_base` reports `added_count = 1` and `updated_count = 2`, while
the claim asserts both are `0`. -/
theorem c1_counterexample :
    (merge_into_base
      (merge_into_base []
        [⟨"  ", "z", "z", "", ""⟩, ⟨"p", "a", "x", "", ""⟩, ⟨"p", "b", "x", "", ""⟩]).1
      [⟨"  ", "z", "z", "", ""⟩, ⟨"p", "a", "x", "", ""⟩, ⟨"p", "b", "x", "", ""⟩]).2.1 = 1 ∧
    (merge_into_base
      (merge_into_base []
        [⟨"  ", "z", "z", "", ""⟩, ⟨"p", "a", "x", "", ""⟩, ⟨"p", "b", "x", "", ""⟩]).1
      [⟨"  ", "z", "z", "", ""⟩, ⟨"p", "a", "x", "", ""⟩, ⟨"p", "b", "x", "", ""⟩]).2.2 = 2 := by
  constructor <;> decide

/-- Claim C1 (amended): merging the same generated row sequence a second
time immediately after a first run returns `added_count = 0` and
`updated_count = 0` for EVERY base dataset state (duplicate or empty base
keys included), provided the generated rows' normalized prompts are
non-empty and pairwise distinct: the index maps each non-empty key to its
last occurrence, which after the first run holds the generated values. -/
theorem c1_merge_idempotence (existing : List BaseRow) (g : List TrainingRow)
    (hgn : ∀ r ∈ g, keyG r ≠ "") (hgd : (g.map keyG).Nodup) :
    (merge_into_base (merge_into_base existing g).1 g).2.1 = 0 ∧
    (merge_into_base (merge_into_base existing g).1 g).2.2 = 0 :=
  merge_twice_zero_any existing g hgn hgd

/-- Claim C1 witness: the amended idempotence theorem applied to a base
dataset that itself has duplicate normalized prompts (`"p"`/`"P"`) and an
empty one (`" "`) — no condition on the base is needed. -/
theorem c1_witness :
    (merge_into_base (merge_into_base [⟨"p", "a", "n"⟩, ⟨"P", "b", "n"⟩, ⟨" ", "c", "n"⟩]
        [⟨"p", "x", "y", "", ""⟩, ⟨"q", "c", "d", "", ""⟩]).1
      [⟨"p", "x", "y", "", ""⟩, ⟨"q", "c", "d", "", ""⟩]).2.1 = 0 ∧
    (merge_into_base (merge_into_base [⟨"p", "a", "n"⟩, ⟨"P", "b", "n"⟩, ⟨" ", "c", "n"⟩]
        [⟨"p", "x", "y", "", ""⟩, ⟨"q", "c", "d", "", ""⟩]).1
      [⟨"p", "x", "y", "", ""⟩, ⟨"q", "c", "d", "", ""⟩]).2.2 = 0 :=
  c1_merge_idempotence [⟨"p", "a", "n"⟩, ⟨"P", "b", "n"⟩, ⟨" ", "c", "n"⟩]
    [⟨"p", "x", "y", "", ""⟩, ⟨"q", "c", "d", "", ""⟩]
    (by decide) (by decide)

/-- Claim C2 counterexample: the base row `⟨" ", "a", "x"⟩` has normalized
prompt key `""`, and both generated rows `⟨" ", "b", "x"⟩` carry that same
key. By the claim, the key exists in the base, so the base row must be
overwritten (label becomes `"b"`) and nothing appended. The code instead
skips empty keys when indexing and checks the evolving index rather than the
base: it appends one new row (`added_count = 1`), counts no update, and
leaves the base row's label `"a"`. -/
theorem c2_counterexample :
    merge_into_base [⟨" ", "a", "x"⟩]
      [⟨" ", "b", "x", "", ""⟩, ⟨" ", "b", "x", "", ""⟩] =
      ([⟨" ", "a", "x"⟩, ⟨" ", "b", "x"⟩], 1, 0) := by
  decide

/-- Claim C2 (amended): when the base rows' normalized prompts are non-empty
and pairwise distinct and the generated rows' normalized prompts are
pairwise distinct (so the evolving index coincides with base-key lookup),
the merge returns exactly: each base row with `label` and `next_action`
overwritten by its matching generated row (if any, else untouched byte for
byte), followed by the stripped fresh generated rows in order;
`added_count` counts the generated rows whose key matches no base row, and
`updated_count` counts those matching a base row that differs in `label` or
`next_action`. No row is ever removed. -/
theorem c2_merge_semantics (existing : List BaseRow) (g : List TrainingRow)
    (hbn : ∀ b ∈ existing, keyB b ≠ "") (hbd : (existing.map keyB).Nodup)
    (hgd : (g.map keyG).Nodup) :
    merge_into_base existing g =
      (existing.map (overwriteBy g) ++ (g.filter (freshRow existing)).map stripRow,
       (g.filter (freshRow existing)).length,
       (g.filter (updHit existing)).length) ∧
    (∀ b ∈ existing, (∀ r ∈ g, keyG r ≠ keyB b) → overwriteBy g b = b) ∧
    existing.length ≤ (merge_into_base existing g).1.length := by
  have h := merge_into_base_closed existing g hbn hbd hgd
  refine ⟨h, fun b _ hb => overwriteBy_eq_self hb, ?_⟩
  rw [h]
  show existing.length ≤ (mergedCF existing g).length
  unfold mergedCF
  rw [List.length_append, List.length_map]
  omega

/-- Claim C2 witness: the amended merge semantics evaluated on a concrete
base dataset (one row, key `"p1"`) and two generated rows (one update with a
changed label, one fresh addition). -/
theorem c2_witness :
    merge_into_base [⟨"P1", "l1", "n1"⟩]
      [⟨"p1 ", "l2", "n1", "i", "u"⟩, ⟨"q", "l3", "n3", "i2", "u2"⟩] =
      ([⟨"P1", "l2", "n1"⟩, ⟨"q", "l3", "n3"⟩], 1, 1) := by
  have h := (c2_merge_semantics [⟨"P1", "l1", "n1"⟩]
    [⟨"p1 ", "l2", "n1", "i", "u"⟩, ⟨"q", "l3", "n3", "i2", "u2"⟩]
    (by decide) (by decide) (by decide)).1
  rw [h]
  decide

/-- Claim C3: the id derived for a record without one depends on the
process-salted builtin `hash`, not only on title and year — two interpreter
runs with different hash seeds normalize the identical input record
`{"title": "T", "year": 2020}` to papers with different ids, contradicting
the spec's "derived deterministically from title+year". -/
theorem c3_unstable_id :
    normalizeRecord (fun _ => 0) (.jobj [("title", .jstr "T"), ("year", .jint 2020)]) =
      .ok (some ⟨"paper-0", "T", 2020, "execution", fallbackInsight, fallbackHint, fallbackUrl,
        ["execution", "execution", "atlas"]⟩) ∧
    normalizeRecord (fun _ => 1) (.jobj [("title", .jstr "T"), ("year", .jint 2020)]) =
      .ok (some ⟨"paper-1", "T", 2020, "execution", fallbackInsight, fallbackHint, fallbackUrl,
        ["execution", "execution", "atlas"]⟩) ∧
    (("paper-0" : String) == "paper-1") = false :=
  ⟨rfl, rfl, by decide⟩

/-- Claim C4: the deduplicated corpus has pairwise-distinct
`(lower-cased title, year)` keys; it contains a paper exactly when that
paper occurs in the input with no later same-key occurrence (the later
record fully replaces the earlier one); and it is sorted descending by year,
then ascending by title. -/
theorem c4_dedup (rows : List Paper) :
    ((dedup_sorted rows).Pairwise (fun a b => paperKey a ≠ paperKey b)) ∧
    (∀ p, p ∈ dedup_sorted rows ↔
      (∃ l1 l2, rows = l1 ++ p :: l2 ∧ ∀ q ∈ l2, paperKey q ≠ paperKey p)) ∧
    ((dedup_sorted rows).Pairwise paperLE) := by
  refine ⟨dedup_sorted_keys_pairwise rows, ?_, dedup_sorted_sorted rows⟩
  intro p
  rw [dedup_sorted_mem, lastWithKey_iff]
  constructor
  · rintro ⟨_, h⟩
    exact h
  · intro h
    exact ⟨rfl, h⟩

/-- Claim C4 witness: on a concrete input where the third paper collides
with the first on the key `("t", 2020)`, the later colliding paper is in the
deduplicated output. -/
theorem c4_witness :
    (⟨"3", "t", 2020, "e", "x", "y", "z", []⟩ : Paper) ∈
      dedup_sorted [⟨"1", "T", 2020, "e", "x", "y", "z", []⟩,
        ⟨"2", "A", 2021, "e", "x", "y", "z", []⟩,
        ⟨"3", "t", 2020, "e", "x", "y", "z", []⟩] :=
  ((c4_dedup [⟨"1", "T", 2020, "e", "x", "y", "z", []⟩,
      ⟨"2", "A", 2021, "e", "x", "y", "z", []⟩,
      ⟨"3", "t", 2020, "e", "x", "y", "z", []⟩]).2.1
    ⟨"3", "t", 2020, "e", "x", "y", "z", []⟩).2
    ⟨[⟨"1", "T", 2020, "e", "x", "y", "z", []⟩, ⟨"2", "A", 2021, "e", "x", "y", "z", []⟩],
      [], rfl, by simp⟩

/-- Claim C5 counterexample: the record `{"title": "T", "year": "abc"}` has
a truthy, non-numeric year; the claim says it is treated as year 0 and
silently discarded, but `int("abc")` raises a `ValueError` and the build
aborts. -/
theorem c5_counterexample :
    normalizeRecord (fun _ => 0) (.jobj [("title", .jstr "T"), ("year", .jstr "abc")]) =
      .error valueErrMsg := rfl

/-- Claim C5 (amended): an object record is silently discarded exactly when
its year value converts to an integer (missing or falsy year counting as 0)
and either the trimmed title is empty or the year is ≤ 0; a truthy year that
is not integer-convertible raises instead. Discarded records reach no
output: every paper in a successfully loaded corpus has a non-empty title
and a positive year. -/
theorem c5_drop_rule (hash : String → Int) (fields : List (String × JVal)) :
    (normalizeRecord hash (.jobj fields) = .ok none ↔
      ∃ y, pyInt (pyOr (jget fields "year" (.jint 0)) (.jint 0)) = some y ∧
        (pyStrip (pyStr (jget fields "title" (.jstr ""))) = "" ∨ y ≤ 0)) ∧
    (∀ (jparse : String → Option JVal) (sources : List (Option String)) (out : List Paper),
      load_jsonl jparse hash sources = .ok out → ∀ p ∈ out, p.title ≠ "" ∧ 0 < p.year) :=
  ⟨normalizeRecord_skip_iff hash fields,
    fun jparse sources out h => load_jsonl_mem jparse hash sources out h⟩

/-- Claim C5 witness: the drop rule applied to the concrete record with a
whitespace-only title and year 3 concludes it is silently skipped. -/
theorem c5_witness :
    normalizeRecord (fun _ => 0) (.jobj [("title", .jstr "  "), ("year", .jint 3)]) =
      .ok none :=
  (c5_drop_rule (fun _ => 0) [("title", .jstr "  "), ("year", .jint 3)]).1.2
    ⟨3, rfl, Or.inl rfl⟩

/-- Claim C6: the raw record `{"title": "T", "year": 2020}` normalizes (for
every hash seed) to a paper with domain `"execution"`, the fixed non-empty
fallback insight and action hint, a source url starting with
`https://doi.org/`, and keywords exactly `[domain, "execution", "atlas"]`
= `["execution", "execution", "atlas"]`, duplicates preserved. -/
theorem c6_default_backfill (hash : String → Int) :
    ∃ p : Paper,
      normalizeRecord hash (.jobj [("title", .jstr "T"), ("year", .jint 2020)]) =
        .ok (some p) ∧
      p.domain = "execution" ∧
      p.actionable_insight = fallbackInsight ∧ fallbackInsight ≠ "" ∧
      p.action_hint = fallbackHint ∧ fallbackHint ≠ "" ∧
      ("https://doi.org/".data.isPrefixOf p.source_url.data) = true ∧
      p.keywords = [p.domain, "execution", "atlas"] ∧
      p.keywords = ["execution", "execution", "atlas"] :=
  ⟨⟨pyStrip (derivedId hash "T" 2020), "T", 2020, "execution", fallbackInsight,
      fallbackHint, fallbackUrl, ["execution", "execution", "atlas"]⟩,
    rfl, rfl, rfl, by decide, rfl, by decide,
    (by decide : ("https://doi.org/".data.isPrefixOf fallbackUrl.data) = true), rfl, rfl⟩

/-- Claim C7: every paper yields at least 3 training rows; a paper with
domain `"crisis-management"` yields exactly 4 (3 base + 1 emergency bonus);
and every emitted row carries the same `label`, `next_action`, `paper_id`
and `source_url`, taken from the classifier and the paper. -/
theorem c7_synthesizer (p : Paper) :
    3 ≤ (training_rows_for p).length ∧
    (p.domain = "crisis-management" → (training_rows_for p).length = 4) ∧
    ∀ r ∈ training_rows_for p,
      r.label = paper_to_label p.domain ∧ r.next_action = p.action_hint ∧
      r.paper_id = p.id ∧ r.source_url = p.source_url :=
  training_rows_for_props p

/-- Claim C7 witness: a concrete crisis-management paper yields exactly 4
rows. -/
theorem c7_witness :
    (training_rows_for ⟨"i", "T", 2020, "crisis-management", "ins", "act", "u", []⟩).length
      = 4 :=
  (c7_synthesizer ⟨"i", "T", 2020, "crisis-management", "ins", "act", "u", []⟩).2.1 rfl

/-- Claim C8 counterexample: a base dataset that already contains duplicate
normalized prompts (`"p"`/`"P"`) and a whitespace-only prompt, merged with
one whitespace-only generated row, is written back with two pairs of rows
sharing a normalized prompt (`"p"` at positions 0 and 1, `""` at 2 and 3). -/
theorem c8_counterexample :
    ((merge_into_base [⟨"p", "a", "n"⟩, ⟨"P", "b", "n"⟩, ⟨" ", "c", "n"⟩]
      [⟨"  ", "d", "n", "", ""⟩]).1).length = 4 ∧
    keyB ((merge_into_base [⟨"p", "a", "n"⟩, ⟨"P", "b", "n"⟩, ⟨" ", "c", "n"⟩]
      [⟨"  ", "d", "n", "", ""⟩]).1.getD 0 dummyRow) =
    keyB ((merge_into_base [⟨"p", "a", "n"⟩, ⟨"P", "b", "n"⟩, ⟨" ", "c", "n"⟩]
      [⟨"  ", "d", "n", "", ""⟩]).1.getD 1 dummyRow) ∧
    keyB ((merge_into_base [⟨"p", "a", "n"⟩, ⟨"P", "b", "n"⟩, ⟨" ", "c", "n"⟩]
      [⟨"  ", "d", "n", "", ""⟩]).1.getD 2 dummyRow) =
    keyB ((merge_into_base [⟨"p", "a", "n"⟩, ⟨"P", "b", "n"⟩, ⟨" ", "c", "n"⟩]
      [⟨"  ", "d", "n", "", ""⟩]).1.getD 3 dummyRow) := by
  refine ⟨?_, ?_, ?_⟩ <;> decide

/-- Claim C8 (amended): whenever the loaded base rows' normalized prompts
are non-empty and pairwise distinct, the dataset written by the merge again
has pairwise-distinct normalized prompts, whatever the generated rows are. -/
theorem c8_unique_key (existing : List BaseRow) (g : List TrainingRow)
    (hbn : ∀ b ∈ existing, keyB b ≠ "") (hbd : (existing.map keyB).Nodup) :
    (((merge_into_base existing g).1).map keyB).Nodup :=
  merge_into_base_nodup existing g hbn hbd

/-- Claim C8 witness: the uniqueness invariant on a concrete merge with one
update and one addition. -/
theorem c8_witness :
    (((merge_into_base [⟨"p", "a", "n"⟩]
      [⟨"P ", "b", "m", "", ""⟩, ⟨"q", "c", "d", "", ""⟩]).1).map keyB).Nodup :=
  c8_unique_key [⟨"p", "a", "n"⟩] [⟨"P ", "b", "m", "", ""⟩, ⟨"q", "c", "d", "", ""⟩]
    (by decide) (by decide)

/-- Claim C9 counterexample: the input file containing the single line `5`
exists and the line parses as JSON, yet the build aborts: the decoded value
is not an object, and `row.get` raises. The claim's "exactly when" is
violated. -/
theorem c9_counterexample :
    load_jsonl (fun s => if s = "5" then some (.jint 5) else none) (fun _ => 0) [some "5"] =
      .error attrErrMsg ∧
    (fun s => if s = "5" then some (.jint 5) else (none : Option JVal)) "5" =
      some (.jint 5) :=
  ⟨rfl, rfl⟩

/-- Claim C9 (amended): corpus loading succeeds exactly when every declared
input exists and every non-blank line decodes to a JSON value accepted by
the normalizer without an exception (in particular blank lines are skipped
silently); it fails when a source is missing, a non-blank line fails to
parse, a parsed line is not an object, or a truthy year is not
integer-convertible. -/
theorem c9_loader_errors (jparse : String → Option JVal) (hash : String → Int)
    (sources : List (Option String)) :
    (load_jsonl jparse hash sources).isOk = true ↔
      ∀ src ∈ sources, ∃ content, src = some content ∧
        ∀ raw ∈ splitLines content, pyStrip raw = "" ∨
          ∃ v, jparse (pyStrip raw) = some v ∧ ∃ r, normalizeRecord hash v = .ok r :=
  load_jsonl_isOk jparse hash sources

/-- Claim C9 witness: a source consisting only of blank lines loads
successfully. -/
theorem c9_witness :
    (load_jsonl (fun _ => (none : Option JVal)) (fun _ => (0 : Int))
      [some " \n\t"]).isOk = true :=
  (c9_loader_errors (fun _ => none) (fun _ => 0) [some " \n\t"]).2 (by
    intro src hs
    refine ⟨" \n\t", by simpa using hs, ?_⟩
    intro raw hr
    left
    have h2 : raw ∈ splitLines " \n\t" := hr
    rw [show splitLines " \n\t" = [" ", "\t"] from rfl] at h2
    rcases (by simpa using h2 : raw = " " ∨ raw = "\t") with h | h <;> rw [h] <;> rfl)

/-- Claim C10: if `k` is a normalized prompt key absent from the base and
the generated rows with key `k` are `s :: ss` (in order), the written
dataset contains exactly one row with key `k`: its prompt text is `s`'s, its
`label` and `next_action` are the last such row's; the number of later
duplicates whose `label` or `next_action` differed from the then-current
stored values (`chainUpdates`) is a lower bound on `updated_count`, exact
when every generated row carries key `k`. -/
theorem c10_duplicate_generated (existing : List BaseRow) (g : List TrainingRow) (k : String)
    (hk : ∀ b ∈ existing, keyB b ≠ k) (s : TrainingRow) (ss : List TrainingRow)
    (hsub : g.filter (fun r => keyG r == k) = s :: ss) :
    (merge_into_base existing g).1.filter (fun b => keyB b == k) =
      [⟨s.prompt, (ss.getLastD s).label, (ss.getLastD s).next_action⟩] ∧
    chainUpdates s.label s.next_action ss ≤ (merge_into_base existing g).2.2 ∧
    ((∀ r ∈ g, keyG r = k) →
      (merge_into_base existing g).2.2 = chainUpdates s.label s.next_action ss) := by
  obtain ⟨h1, h2, h3⟩ := merge_into_base_key existing g k hk s ss hsub
  refine ⟨?_, h2, h3⟩
  rw [h1, chainState_eq_getLastD ss s]

/-- Claim C10 witness: two generated rows sharing the fresh key `"d"` (raw
prompts `"d"` and `"D "`) produce one written row with the first prompt and
the last label, and exactly one update is counted. -/
theorem c10_witness :
    (merge_into_base [] [⟨"d", "a", "x", "", ""⟩, ⟨"D ", "b", "x", "", ""⟩]).1.filter
        (fun b => keyB b == "d") = [⟨"d", "b", "x"⟩] ∧
    (merge_into_base [] [⟨"d", "a", "x", "", ""⟩, ⟨"D ", "b", "x", "", ""⟩]).2.2 = 1 := by
  obtain ⟨h1, _, h3⟩ := c10_duplicate_generated []
    [⟨"d", "a", "x", "", ""⟩, ⟨"D ", "b", "x", "", ""⟩] "d" (by decide)
    ⟨"d", "a", "x", "", ""⟩ [⟨"D ", "b", "x", "", ""⟩] (by decide)
  constructor
  · rw [h1]
    decide
  · rw [h3 (by decide)]
    decide
